import Mathlib

/-!
Verification development for the `practicebank` parsing pipeline.

This file gives a shallow embedding of the core of the repository:

* the typed node model of `practicebank/types.py` (`InternalNode`,
  `LeafNode`, the concrete node classes and their `allowed_child_types`
  tables, `add_child`, `children`, `__eq__`);
* the LaTeX-to-AST converter of `practicebank/parsers/latex.py`
  (the `ENV_PARSERS` / `CMD_PARSERS` dispatch tables, `_segment`,
  `_convert_soup_node`);
* the paragraph reconstruction pass (`_paragraphize_textlike_nodes`,
  `_paragraphize`).

Python exceptions are modelled with `Except`: `IllegalChild` (raised by
`add_child`) becomes `Err.illegalChild`, the `ValueError("Unknown node
type: ...")` raised by `_convert_soup_node` becomes `Err.unknownConstruct`,
and the file-not-found error raised when an `includegraphics` or
`inputminted` path cannot be opened (the spec's "ResourceResolutionError")
becomes `Err.resourceResolution`, carrying the offending relative path.
Python strings are Lean `String`s; the binary payload of an image is
modelled as a `String` as well, since no claim inspects the bytes.
-/

namespace Practicebank

/-- Tags naming the concrete node classes of `practicebank/types.py`.
`solution` is the `Solution` class (a container), `trueFalse` the
`TrueFalse` leaf. -/
inductive Tag where
  | problem
  | subproblem
  | paragraph
  | normalText
  | boldText
  | italicText
  | displayMath
  | inlineMath
  | code
  | inlineCode
  | image
  | multipleChoices
  | multipleSelect
  | choice
  | trueFalse
  | fillInTheBlank
  | solution
deriving DecidableEq, Repr

/-- The practice-problem tree of `practicebank/types.py`.  Each concrete
class becomes one constructor; internal nodes carry their ordered child
list, leaf nodes carry their attributes. -/
inductive Node where
  | problem (children : List Node)
  | subproblem (children : List Node)
  | paragraph (children : List Node)
  | normalText (text : String)
  | boldText (text : String)
  | italicText (text : String)
  | displayMath (latex : String)
  | inlineMath (latex : String)
  | code (language : String) (code : String)
  | inlineCode (language : String) (code : String)
  | image (relativePath : String) (data : String)
  | multipleChoices (children : List Node)
  | multipleSelect (children : List Node)
  | choice (correct : Bool) (children : List Node)
  | trueFalse (solution : Bool)
  | fillInTheBlank (children : List Node)
  | solution (children : List Node)

/-- Runtime type of a node (`type(node)` in Python). -/
def Node.tag : Node → Tag
  | .problem _ => .problem
  | .subproblem _ => .subproblem
  | .paragraph _ => .paragraph
  | .normalText _ => .normalText
  | .boldText _ => .boldText
  | .italicText _ => .italicText
  | .displayMath _ => .displayMath
  | .inlineMath _ => .inlineMath
  | .code _ _ => .code
  | .inlineCode _ _ => .inlineCode
  | .image _ _ => .image
  | .multipleChoices _ => .multipleChoices
  | .multipleSelect _ => .multipleSelect
  | .choice _ _ => .choice
  | .trueFalse _ => .trueFalse
  | .fillInTheBlank _ => .fillInTheBlank
  | .solution _ => .solution

/-- The ordered child list (`node._children`); empty for leaf nodes. -/
def Node.childrenOf : Node → List Node
  | .problem cs => cs
  | .subproblem cs => cs
  | .paragraph cs => cs
  | .multipleChoices cs => cs
  | .multipleSelect cs => cs
  | .choice _ cs => cs
  | .fillInTheBlank cs => cs
  | .solution cs => cs
  | _ => []

/-- Replace the child list, keeping all attributes.  On a leaf node this
is the identity (leaves own no children). -/
def Node.setChildren : Node → List Node → Node
  | .problem _, cs => .problem cs
  | .subproblem _, cs => .subproblem cs
  | .paragraph _, cs => .paragraph cs
  | .multipleChoices _, cs => .multipleChoices cs
  | .multipleSelect _, cs => .multipleSelect cs
  | .choice b _, cs => .choice b cs
  | .fillInTheBlank _, cs => .fillInTheBlank cs
  | .solution _, cs => .solution cs
  | n, _ => n

/-- Whether the node's class derives from `InternalNode`. -/
def Node.isInternal : Node → Bool
  | .problem _ => true
  | .subproblem _ => true
  | .paragraph _ => true
  | .multipleChoices _ => true
  | .multipleSelect _ => true
  | .choice _ _ => true
  | .fillInTheBlank _ => true
  | .solution _ => true
  | _ => false

/-- The tuple `Problem.allowed_child_types` from `types.py`. -/
def problemAllowedChildTypes : List Tag :=
  [.subproblem, .code, .displayMath, .image, .multipleChoices, .multipleSelect,
   .trueFalse, .fillInTheBlank, .solution, .normalText, .boldText, .italicText,
   .inlineMath, .inlineCode, .paragraph]

/-- The tuple `Paragraph.allowed_child_types` from `types.py`. -/
def paragraphAllowedChildTypes : List Tag :=
  [.normalText, .boldText, .italicText, .inlineMath, .inlineCode]

/-- The tuple `Choice.allowed_child_types` from `types.py` (also used for
`Solution` and `FillInTheBlank`). -/
def choiceAllowedChildTypes : List Tag :=
  [.normalText, .boldText, .italicText, .inlineMath, .displayMath, .code,
   .inlineCode, .image, .paragraph]

/-- The per-class `allowed_child_types` tables of `types.py`.
`Subproblem.allowed_child_types` is `Problem.allowed_child_types[1:]`
(subproblems may not nest).  Leaf classes inherit the empty default. -/
def allowedChildTags : Tag → List Tag
  | .problem => problemAllowedChildTypes
  | .subproblem => problemAllowedChildTypes.tail
  | .paragraph => paragraphAllowedChildTypes
  | .multipleChoices => [.choice]
  | .multipleSelect => [.choice]
  | .choice => choiceAllowedChildTypes
  | .solution => choiceAllowedChildTypes
  | .fillInTheBlank => choiceAllowedChildTypes
  | _ => []

/-- Errors of the parsing pipeline.  `illegalChild` is
`exceptions.IllegalChild(parent, child)`; `unknownConstruct` is the
`ValueError("Unknown node type: ...")` of `_convert_soup_node`;
`resourceResolution` is the file-not-found error escaping the
`includegraphics` / `inputminted` parsers (the spec's
ResourceResolutionError), carrying the unresolvable relative path;
`malformed` stands for the `IndexError` / unpacking errors a parser hits
when a construct is missing required arguments. -/
inductive Err where
  | illegalChild (parent child : Node)
  | unknownConstruct (name : String)
  | resourceResolution (path : String)
  | malformed (construct : String)

/-- `InternalNode.add_child`: check `isinstance(node, self.allowed_child_types)`
and either append the child or raise `IllegalChild(self, node)`.
(In the source only internal nodes have this method; on a leaf the
allowed set is empty, so this model always reports `illegalChild` there.) -/
def addChild (parent child : Node) : Except Err Node :=
  if child.tag ∈ allowedChildTags parent.tag then
    .ok (parent.setChildren (parent.childrenOf ++ [child]))
  else
    .error (.illegalChild parent child)

/-- `InternalNode.__init__(children=...)`: start from a node with no
children and `add_child` each given child in order. -/
def mkNode (base : Node) (children : List Node) : Except Err Node :=
  children.foldlM addChild base

/-- `isinstance(n, types.Paragraph.allowed_child_types)`: whether a node
may live inside a `Paragraph` ("paragraph-eligible"). -/
def eligibleB (n : Node) : Bool :=
  n.tag ∈ allowedChildTags .paragraph

/-- `isinstance(node, types.TextNode)`: the text-like classes
`NormalText`, `BoldText`, `ItalicText`. -/
def isTextNodeB : Node → Bool
  | .normalText _ => true
  | .boldText _ => true
  | .italicText _ => true
  | _ => false

/-- The `text` attribute of a `TextNode` (empty for other nodes, which
have no such attribute). -/
def Node.textOf : Node → String
  | .normalText s => s
  | .boldText s => s
  | .italicText s => s
  | _ => ""

/-- `type(node)(paragraph)`: rebuild a text node of the same concrete
class around a new string.  Only ever applied to `TextNode`s in the
source; on other nodes this model defaults to `NormalText`. -/
def mkTextOfSameType : Node → String → Node
  | .boldText _, s => .boldText s
  | .italicText _, s => .italicText s
  | _, s => .normalText s

/-- `text.split("\n\n")` on the character list: split at each
non-overlapping double-newline occurrence, scanning left to right.
Always returns at least one (possibly empty) piece, like Python's
`str.split` with a separator. -/
def splitCharsOnBreak : List Char → List (List Char)
  | [] => [[]]
  | '\n' :: '\n' :: rest => [] :: splitCharsOnBreak rest
  | c :: rest =>
    match splitCharsOnBreak rest with
    | [] => [[c]]
    | p :: ps => (c :: p) :: ps

/-- `node.text.split("\n\n")` as a `String` operation. -/
def splitOnBreak (s : String) : List String :=
  (splitCharsOnBreak s.data).map (fun cs => String.mk cs)

/-- `_split_text_node_into_paragraphs` from `_paragraphize_textlike_nodes`:
split a text node's text at double-newlines; if there is a single piece
return the node itself, otherwise return the rebuilt pieces with the
`parbreak` sentinel (here `none`) between consecutive pieces. -/
def splitTextNodeIntoParagraphs (node : Node) : List (Option Node) :=
  let paragraphs := splitOnBreak node.textOf
  if paragraphs.length == 1 then [some node]
  else List.intersperse none (paragraphs.map (fun p => some (mkTextOfSameType node p)))

/-- One iteration of the splitting loop of `_paragraphize_textlike_nodes`:
only `TextNode`s are split; every other node passes through unchanged. -/
def expandItem (node : Node) : List (Option Node) :=
  if isTextNodeB node then splitTextNodeIntoParagraphs node else [some node]

/-- The whole splitting loop: the expanded node list with `parbreak`
sentinels interspersed (`nodes_after_splitting`). -/
def expandRun (nodes : List Node) : List (Option Node) :=
  nodes.flatMap expandItem

/-- Split a sentinel-bearing list at each `none`.  Together with dropping
the empty chunks this is `itertools.groupby(l, lambda n: n is parbreak)`
restricted to the groups whose key is `False`. -/
def splitOnNone : List (Option Node) → List (List Node)
  | [] => [[]]
  | none :: rest => [] :: splitOnNone rest
  | some n :: rest =>
    match splitOnNone rest with
    | [] => [[n]]
    | g :: gs => (n :: g) :: gs

/-- `_paragraphize_textlike_nodes`: split the text nodes of a run at
double-newlines, group the expanded sequence at the break sentinels, and
wrap each group into one `Paragraph` (built with `add_child`, so an
ineligible member raises `IllegalChild`). -/
def paragraphizeTextlikeNodes (nodes : List Node) : Except Err (List Node) :=
  let nodesAfterSplitting := expandRun nodes
  let groups := (splitOnNone nodesAfterSplitting).filter (fun g => !g.isEmpty)
  groups.mapM (fun g => mkNode (.paragraph []) g)

/-- Structural equality of two child lists as computed by
`zip(self._children, other._children)` with `all(x == y ...)`: compare
pairwise up to the shorter list (`__eq__` checks the lengths separately). -/
def nodeListZipEq (eq : Node → Node → Bool) : List Node → List Node → Bool
  | x :: xs, y :: ys => eq x y && nodeListZipEq eq xs ys
  | _, _ => true

mutual

/-- `__eq__` from `types.py`: `isinstance(other, type(self))` (the
concrete classes are unrelated, so this is same-runtime-type), then for
internal nodes equal child count, then equal attributes and pairwise
equal zipped children; for leaf nodes just equal attributes. -/
def nodeEq : Node → Node → Bool
  | .problem cs, .problem ds => cs.length == ds.length && nodeChildrenEq cs ds
  | .subproblem cs, .subproblem ds => cs.length == ds.length && nodeChildrenEq cs ds
  | .paragraph cs, .paragraph ds => cs.length == ds.length && nodeChildrenEq cs ds
  | .multipleChoices cs, .multipleChoices ds => cs.length == ds.length && nodeChildrenEq cs ds
  | .multipleSelect cs, .multipleSelect ds => cs.length == ds.length && nodeChildrenEq cs ds
  | .choice b cs, .choice b' ds => cs.length == ds.length && (b == b' && nodeChildrenEq cs ds)
  | .fillInTheBlank cs, .fillInTheBlank ds => cs.length == ds.length && nodeChildrenEq cs ds
  | .solution cs, .solution ds => cs.length == ds.length && nodeChildrenEq cs ds
  | .normalText s, .normalText t => s == t
  | .boldText s, .boldText t => s == t
  | .italicText s, .italicText t => s == t
  | .displayMath s, .displayMath t => s == t
  | .inlineMath s, .inlineMath t => s == t
  | .code l c, .code l' c' => l == l' && c == c'
  | .inlineCode l c, .inlineCode l' c' => l == l' && c == c'
  | .image p d, .image p' d' => p == p' && d == d'
  | .trueFalse b, .trueFalse b' => b == b'
  | _, _ => false

/-- Pairwise recursive equality of zipped child lists. -/
def nodeChildrenEq : List Node → List Node → Bool
  | x :: xs, y :: ys => nodeEq x y && nodeChildrenEq xs ys
  | _, _ => true

end

mutual

/-- Number of nodes in a tree; the termination measure for the recursive
tree passes. -/
def nodeWeight : Node → Nat
  | .problem cs => 1 + nodeListWeight cs
  | .subproblem cs => 1 + nodeListWeight cs
  | .paragraph cs => 1 + nodeListWeight cs
  | .multipleChoices cs => 1 + nodeListWeight cs
  | .multipleSelect cs => 1 + nodeListWeight cs
  | .choice _ cs => 1 + nodeListWeight cs
  | .fillInTheBlank cs => 1 + nodeListWeight cs
  | .solution cs => 1 + nodeListWeight cs
  | _ => 1

/-- Number of nodes in a forest. -/
def nodeListWeight : List Node → Nat
  | [] => 0
  | c :: cs => nodeWeight c + nodeListWeight cs

end

/-- `itertools.groupby(l, p)`: maximal runs of consecutive elements with
the same key, each tagged with that key (the key of the run's first
element). -/
def groupRuns (p : Node → Bool) : List Node → List (Bool × List Node)
  | [] => []
  | c :: cs =>
    (p c, c :: cs.takeWhile (fun x => p x == p c)) ::
      groupRuns p (cs.dropWhile (fun x => p x == p c))
termination_by l => l.length
decreasing_by
  have : (cs.dropWhile (fun x => p x == p c)).length ≤ cs.length :=
    (List.dropWhile_sublist (fun x => p x == p c)).length_le
  simp
  omega

/-- Total node weight of the members of a run list. -/
def groupsWeight : List (Bool × List Node) → Nat
  | [] => 0
  | (_, g) :: gs => nodeListWeight g + groupsWeight gs

/-- Combined length of a run list (runs plus members); a tie-breaking
termination measure. -/
def groupsLen : List (Bool × List Node) → Nat
  | [] => 0
  | (_, g) :: gs => 1 + g.length + groupsLen gs

theorem lexHelp {a b c d : Nat} (h : a < c ∨ (a ≤ c ∧ b < d)) :
    Prod.Lex (· < ·) (· < ·) (a, b) (c, d) := by
  rcases h with h | ⟨h1, h2⟩
  · exact Prod.Lex.left _ _ h
  · rcases Nat.lt_or_ge a c with h' | h'
    · exact Prod.Lex.left _ _ h'
    · have heq : a = c := Nat.le_antisymm h1 h'
      subst heq
      exact Prod.Lex.right _ h2

theorem nodeWeight_pos (n : Node) : 0 < nodeWeight n := by
  cases n <;> simp [nodeWeight]

theorem nodeWeight_childrenOf (n : Node) :
    nodeListWeight n.childrenOf < nodeWeight n := by
  cases n <;> simp [nodeWeight, Node.childrenOf, nodeListWeight]

theorem nodeListWeight_append (l1 l2 : List Node) :
    nodeListWeight (l1 ++ l2) = nodeListWeight l1 + nodeListWeight l2 := by
  induction l1 with
  | nil => simp [nodeListWeight]
  | cons c cs ih => simp [nodeListWeight, ih]; omega

theorem groupsWeight_groupRuns (p : Node → Bool) (l : List Node) :
    groupsWeight (groupRuns p l) = nodeListWeight l := by
  induction l using groupRuns.induct p with
  | case1 => simp [groupRuns, groupsWeight, nodeListWeight]
  | case2 c cs ih =>
    rw [groupRuns, groupsWeight, ih]
    have : cs.takeWhile (fun x => p x == p c) ++
        cs.dropWhile (fun x => p x == p c) = cs :=
      List.takeWhile_append_dropWhile _ _
    calc nodeListWeight (c :: cs.takeWhile (fun x => p x == p c)) +
          nodeListWeight (cs.dropWhile (fun x => p x == p c))
        = nodeWeight c + (nodeListWeight (cs.takeWhile (fun x => p x == p c)) +
            nodeListWeight (cs.dropWhile (fun x => p x == p c))) := by
          simp [nodeListWeight]; omega
      _ = nodeWeight c + nodeListWeight
            (cs.takeWhile (fun x => p x == p c) ++
              cs.dropWhile (fun x => p x == p c)) := by
          rw [nodeListWeight_append]
      _ = nodeListWeight (c :: cs) := by rw [this]; simp [nodeListWeight]

mutual

/-- `_paragraphize`: copy the node without its children, group the
children by paragraph-eligibility, then process the runs in order. -/
def paragraphize (node : Node) : Except Err Node :=
  paragraphizeGroups (node.setChildren []) (groupRuns eligibleB node.childrenOf)
termination_by (nodeWeight node, 0)
decreasing_by
  apply lexHelp
  rw [groupsWeight_groupRuns]
  have := nodeWeight_childrenOf node
  omega

/-- The loop over `itertools.groupby(node.children(), ...)` in
`_paragraphize`: an eligible run is turned into paragraphs and each
paragraph attached with `add_child`; a non-eligible run is passed through
(recursing into internal members). -/
def paragraphizeGroups (acc : Node) : List (Bool × List Node) → Except Err Node
  | [] => .ok acc
  | (b, g) :: gs =>
    if b then
      match paragraphizeTextlikeNodes g with
      | .error e => .error e
      | .ok ps =>
        match ps.foldlM addChild acc with
        | .error e => .error e
        | .ok acc' => paragraphizeGroups acc' gs
    else
      match paragraphizeNoneligible acc g with
      | .error e => .error e
      | .ok acc' => paragraphizeGroups acc' gs
termination_by gs => (groupsWeight gs, groupsLen gs + 1)
decreasing_by
  all_goals apply lexHelp
  all_goals simp [groupsWeight, groupsLen]
  all_goals omega

/-- The non-eligible branch of the loop: recurse with `_paragraphize`
into internal members, pass leaves through, and `add_child` each result. -/
def paragraphizeNoneligible (acc : Node) : List Node → Except Err Node
  | [] => .ok acc
  | c :: cs =>
    match (if c.isInternal then paragraphize c else .ok c) with
    | .error e => .error e
    | .ok c' =>
      match addChild acc c' with
      | .error e => .error e
      | .ok acc' => paragraphizeNoneligible acc' cs
termination_by cs => (nodeListWeight cs, cs.length)
decreasing_by
  all_goals apply lexHelp
  all_goals have := nodeWeight_pos c
  all_goals simp [nodeListWeight]

end

/-- Generic markup node, the interface consumed from the external TexSoup
library: raw text spans, environments (named blocks with bracket
arguments, a raw source string for math/verbatim bodies, and a contents
list), and commands (with positional string arguments).  `exprString`
models `node.expr.string`; the bracket arguments are modelled by their
literal string values (`arg.string`). -/
inductive TexNode where
  | text (s : String)
  | env (name : String) (args : List String) (exprString : String) (contents : List TexNode)
  | cmd (name : String) (args : List String)

/-- `node.name`; raw text spans have no `name` attribute in TexSoup, so
they answer the empty string here (callers guard with `hasattr`). -/
def TexNode.nameOf : TexNode → String
  | .text _ => ""
  | .env n _ _ _ => n
  | .cmd n _ => n

mutual

/-- Number of generic markup nodes in a tree; termination measure for the
converter. -/
def texWeight : TexNode → Nat
  | .text _ => 1
  | .cmd _ _ => 1
  | .env _ _ _ contents => 1 + texListWeight contents

/-- Number of generic markup nodes in a forest. -/
def texListWeight : List TexNode → Nat
  | [] => 0
  | c :: cs => texWeight c + texListWeight cs

end

theorem texWeight_pos (t : TexNode) : 0 < texWeight t := by
  cases t <;> simp [texWeight]

/-- The accumulating loop of `_segment`: push `current_segment` and start
afresh whenever the predicate holds of an item and the current segment is
non-empty; flush the last segment at the end. -/
def segmentLoop (p : TexNode → Bool) :
    List TexNode → List TexNode → List (List TexNode) → List (List TexNode)
  | [], current, segments =>
    if current.isEmpty then segments else segments ++ [current]
  | item :: rest, current, segments =>
    if p item && !current.isEmpty then
      segmentLoop p rest [item] (segments ++ [current])
    else
      segmentLoop p rest (current ++ [item]) segments

/-- `_segment(iterable, predicate)` from `parsers/latex.py`. -/
def segmentList (p : TexNode → Bool) (l : List TexNode) : List (List TexNode) :=
  segmentLoop p l [] []

/-- Total markup weight of a segment list. -/
def segsWeight : List (List TexNode) → Nat
  | [] => 0
  | seg :: rest => texListWeight seg + segsWeight rest

/-- Combined length of a segment list; tie-breaking termination measure. -/
def segsLen : List (List TexNode) → Nat
  | [] => 0
  | seg :: rest => 1 + seg.length + segsLen rest

theorem texListWeight_append (l1 l2 : List TexNode) :
    texListWeight (l1 ++ l2) = texListWeight l1 + texListWeight l2 := by
  induction l1 with
  | nil => simp [texListWeight]
  | cons c cs ih => simp [texListWeight, ih]; omega

theorem segsWeight_append (s1 s2 : List (List TexNode)) :
    segsWeight (s1 ++ s2) = segsWeight s1 + segsWeight s2 := by
  induction s1 with
  | nil => simp [segsWeight]
  | cons seg rest ih => simp [segsWeight, ih]; omega

theorem segsWeight_segmentLoop (p : TexNode → Bool) (l current : List TexNode)
    (segments : List (List TexNode)) :
    segsWeight (segmentLoop p l current segments) =
      texListWeight l + texListWeight current + segsWeight segments := by
  induction l generalizing current segments with
  | nil =>
    by_cases h : current.isEmpty
    · have : current = [] := by simpa using h
      subst this
      simp [segmentLoop, texListWeight]
    · simp [segmentLoop, h, segsWeight_append, segsWeight, texListWeight]
      omega
  | cons item rest ih =>
    by_cases h : p item && !current.isEmpty
    · simp [segmentLoop, h, ih, segsWeight_append, segsWeight,
        texListWeight]
      omega
    · simp [segmentLoop, h, ih, texListWeight_append, texListWeight]
      omega

theorem segsWeight_segmentList (p : TexNode → Bool) (l : List TexNode) :
    segsWeight (segmentList p l) = texListWeight l := by
  simp [segmentList, segsWeight_segmentLoop, texListWeight, segsWeight]

theorem texListWeight_tail_le (l : List TexNode) :
    texListWeight l.tail ≤ texListWeight l := by
  cases l <;> simp [texListWeight]

/-- Whether a line consists solely of spaces and tabs (`textwrap`'s
whitespace-only lines; an empty line also behaves as blank). -/
def lineIsBlank (l : List Char) : Bool :=
  l.all (fun c => c == ' ' || c == '\t')

/-- Leading run of spaces and tabs of a line. -/
def leadingWhitespace : List Char → List Char
  | c :: rest => if c == ' ' || c == '\t' then c :: leadingWhitespace rest else []
  | [] => []

/-- Longest common prefix of two indents. -/
def commonIndent : List Char → List Char → List Char
  | a :: as, b :: bs => if a == b then a :: commonIndent as bs else []
  | _, _ => []

/-- Split a character list at newlines (Python's `text.split("\n")`). -/
def splitLines : List Char → List (List Char)
  | [] => [[]]
  | '\n' :: rest => [] :: splitLines rest
  | c :: rest =>
    match splitLines rest with
    | [] => [[c]]
    | l :: ls => (c :: l) :: ls

/-- Common leading whitespace of the non-blank lines (the `margin` of
`textwrap.dedent`). -/
def marginOf (lines : List (List Char)) : List Char :=
  match lines.filter (fun l => !lineIsBlank l) with
  | [] => []
  | l :: ls => ls.foldl (fun m l' => commonIndent m (leadingWhitespace l')) (leadingWhitespace l)

/-- Strip the margin from a line when the line starts with it. -/
def dropMargin (margin l : List Char) : List Char :=
  if l.take margin.length == margin then l.drop margin.length else l

/-- `textwrap.dedent`: whitespace-only lines are normalized to empty, the
common leading whitespace of the remaining lines is computed, and that
margin is removed from every line that starts with it. -/
def dedent (text : String) : String :=
  let lines := (splitLines text.data).map (fun l => if lineIsBlank l then [] else l)
  let margin := marginOf lines
  String.mk (List.intercalate ['\n'] (lines.map (dropMargin margin)))

/-- Parsing context (`_Context`): the problem directory is modelled by
the partial map of its readable files, keyed by the path relative to the
directory, with file contents as strings (binary reads included). -/
structure Ctx where
  files : String → Option String

/-- `hasattr(node, "name") and node.name in ("choice", "correctchoice")`:
the choice-marker test of the `choices` parser. -/
def isChoiceMarker (t : TexNode) : Bool :=
  match t with
  | .text _ => false
  | _ => t.nameOf == "choice" || t.nameOf == "correctchoice"

/-- `hasattr(tex_child, "name") and tex_child.name == "subprobset"`:
the unwrap test of the `prob` parser. -/
def isSubprobsetB (t : TexNode) : Bool :=
  match t with
  | .text _ => false
  | _ => t.nameOf == "subprobset"

/-- `node.contents` of a generic markup node (commands carry no content
block). -/
def TexNode.contentsOf : TexNode → List TexNode
  | .env _ _ _ contents => contents
  | _ => []

theorem texListWeight_contentsOf_lt (t : TexNode) :
    texListWeight t.contentsOf < texWeight t := by
  cases t <;> simp [TexNode.contentsOf, texWeight, texListWeight]

mutual

/-- `_convert_soup_node`: raw text becomes `NormalText`; otherwise the
node's kind selects the `ENV_PARSERS` or `CMD_PARSERS` dispatch table and
the construct name selects the parser, an unknown name raising
`ValueError("Unknown node type: ...")`.  Each registered parser body is
inlined here under its name match. -/
def convertSoupNode (ctx : Ctx) : TexNode → Except Err Node
  | .text s => .ok (.normalText s)
  | .env name args exprString contents =>
    match name with
    | "[tex]" =>
      match contents with
      | [c] => convertSoupNode ctx c
      | _ => .error (.malformed "[tex]")
    | "prob" => convertProbContents ctx (.problem []) contents
    | "subprob" =>
      match convertEach ctx contents with
      | .error e => .error e
      | .ok cs => mkNode (.subproblem []) cs
    | "$" => .ok (.inlineMath exprString)
    | "$$" => .ok (.displayMath exprString)
    | "displaymath" => .ok (.displayMath exprString)
    | "align" =>
      .ok (.displayMath ("\\begin{aligned}" ++ exprString ++ "\\end{aligned}"))
    | "minted" =>
      match args with
      | lang :: _ => .ok (.code lang (dedent exprString))
      | [] => .error (.malformed "minted")
    | "soln" =>
      match convertEach ctx contents with
      | .error e => .error e
      | .ok cs => mkNode (.solution []) cs
    | "choices" =>
      let isRect : Bool :=
        match args with
        | a :: _ => a == "rectangle"
        | [] => false
      let base : Node := if isRect then .multipleSelect [] else .multipleChoices []
      let contents' := if isRect then contents.tail else contents
      match convertSegments ctx (segmentList isChoiceMarker contents') with
      | .error e => .error e
      | .ok choices => mkNode base choices
    | n => .error (.unknownConstruct n)
  | .cmd name args =>
    match name with
    | "textbf" => .ok (.boldText (args.headD ""))
    | "textit" => .ok (.italicText (args.headD ""))
    | "mintinline" =>
      match args with
      | lang :: codeArg :: _ => .ok (.inlineCode lang codeArg)
      | _ => .error (.malformed "mintinline")
    | "Tf" => .ok (.trueFalse true)
    | "tF" => .ok (.trueFalse false)
    | "includegraphics" =>
      match args with
      | p :: _ =>
        let relpath := p.replace "\\thisdir/" ""
        match ctx.files relpath with
        | some data => .ok (.image relpath data)
        | none => .error (.resourceResolution relpath)
      | [] => .error (.malformed "includegraphics")
    | "inputminted" =>
      match args with
      | lang :: p :: _ =>
        let relpath := p.replace "\\thisdir/" ""
        match ctx.files relpath with
        | some codeText => .ok (.code lang codeText)
        | none => .error (.resourceResolution relpath)
      | _ => .error (.malformed "inputminted")
    | n => .error (.unknownConstruct n)
termination_by t => (texWeight t, 0)
decreasing_by
  all_goals apply lexHelp
  all_goals first
    | (simp [texWeight, texListWeight]; done)
    | (simp [texWeight, texListWeight]; omega)
    | (rename_i renArgs renExpr renContents
       rw [segsWeight_segmentList]
       have := texListWeight_tail_le renContents
       simp only [texWeight]
       split <;> omega)

/-- The loop of the `prob` environment parser: each content child is
converted and attached with `add_child`, except that a `subprobset`
child's own contents are converted and attached directly. -/
def convertProbContents (ctx : Ctx) (acc : Node) : List TexNode → Except Err Node
  | [] => .ok acc
  | c :: cs =>
    if isSubprobsetB c then
      match convertAddEach ctx acc c.contentsOf with
      | .error e => .error e
      | .ok acc' => convertProbContents ctx acc' cs
    else
      match convertSoupNode ctx c with
      | .error e => .error e
      | .ok n =>
        match addChild acc n with
        | .error e => .error e
        | .ok acc' => convertProbContents ctx acc' cs
termination_by cs => (texListWeight cs, cs.length + 1)
decreasing_by
  all_goals apply lexHelp
  all_goals simp [texListWeight]
  all_goals
    have h0 := texListWeight_contentsOf_lt c
    omega

/-- Convert each node of a list and attach it to the accumulator with
`add_child` (the `subprobset` grandchild loop of the `prob` parser). -/
def convertAddEach (ctx : Ctx) (acc : Node) : List TexNode → Except Err Node
  | [] => .ok acc
  | c :: cs =>
    match convertSoupNode ctx c with
    | .error e => .error e
    | .ok n =>
      match addChild acc n with
      | .error e => .error e
      | .ok acc' => convertAddEach ctx acc' cs
termination_by cs => (texListWeight cs, cs.length + 1)
decreasing_by
  all_goals apply lexHelp
  all_goals simp [texListWeight]

/-- Convert each node of a list, collecting the results (the list
comprehensions of the `subprob`, `soln` and choice parsers). -/
def convertEach (ctx : Ctx) : List TexNode → Except Err (List Node)
  | [] => .ok []
  | c :: cs =>
    match convertSoupNode ctx c with
    | .error e => .error e
    | .ok n =>
      match convertEach ctx cs with
      | .error e => .error e
      | .ok ns => .ok (n :: ns)
termination_by cs => (texListWeight cs, cs.length + 1)
decreasing_by
  all_goals apply lexHelp
  all_goals simp [texListWeight]

/-- `_make_choice_from_segment` applied to each segment in order:
`correct` is whether the leading marker is `correctchoice`, the children
are the converted remainder of the segment; `Choice(...)` attaches them
with `add_child`.  (`_segment` never yields an empty segment; on one this
model reports the `IndexError` of `segment[0]` as `malformed`.) -/
def convertSegments (ctx : Ctx) : List (List TexNode) → Except Err (List Node)
  | [] => .ok []
  | seg :: rest =>
    match seg with
    | [] => .error (.malformed "choices")
    | marker :: body =>
      match convertEach ctx body with
      | .error e => .error e
      | .ok children =>
        match mkNode (.choice (marker.nameOf == "correctchoice") []) children with
        | .error e => .error e
        | .ok c =>
          match convertSegments ctx rest with
          | .error e => .error e
          | .ok cs => .ok (c :: cs)
termination_by segs => (segsWeight segs, segsLen segs + 1)
decreasing_by
  all_goals apply lexHelp
  all_goals simp [segsWeight, segsLen, texListWeight]
  all_goals omega

end

/-- `parse`: convert the generic tree, then run the paragraph pass.
The TexSoup root wrapping the document is the `[tex]` environment. -/
def parse (ctx : Ctx) (soup : TexNode) : Except Err Node :=
  match convertSoupNode ctx soup with
  | .error e => .error e
  | .ok tree => paragraphize tree

/-- Attribute bundle of a node: the values of the names in the class's
`attrs` tuple (empty for the attribute-less containers). -/
inductive NodeAttrs where
  | noAttrs
  | textA (text : String)
  | latexA (latex : String)
  | codeA (language code : String)
  | imageA (relativePath data : String)
  | correctA (correct : Bool)
  | solutionA (solution : Bool)

/-- The declared attributes of each concrete node class. -/
def attrsOf : Node → NodeAttrs
  | .problem _ => .noAttrs
  | .subproblem _ => .noAttrs
  | .paragraph _ => .noAttrs
  | .normalText s => .textA s
  | .boldText s => .textA s
  | .italicText s => .textA s
  | .displayMath s => .latexA s
  | .inlineMath s => .latexA s
  | .code l c => .codeA l c
  | .inlineCode l c => .codeA l c
  | .image p d => .imageA p d
  | .multipleChoices _ => .noAttrs
  | .multipleSelect _ => .noAttrs
  | .choice b _ => .correctA b
  | .trueFalse b => .solutionA b
  | .fillInTheBlank _ => .noAttrs
  | .solution _ => .noAttrs

/-- Number of double-newline occurrences inside the text members of a
run, counted the way `str.split` scans them (left to right,
non-overlapping): one less than the number of split pieces per text
member. -/
def runBreakCount (nodes : List Node) : Nat :=
  (nodes.map (fun n =>
    if isTextNodeB n then (splitOnBreak n.textOf).length - 1 else 0)).sum

/-- The pieces a run member contributes after the splitting step: split
pieces (rebuilt at the member's own type) for a text node, the member
itself otherwise. -/
def piecesOf (m : Node) : List Node :=
  if isTextNodeB m then (splitOnBreak m.textOf).map (fun p => mkTextOfSameType m p)
  else [m]

/-- Prepend a node onto the first chunk of a chunk list. -/
def consHead (x : Node) : List (List Node) → List (List Node)
  | [] => [[x]]
  | g :: gs => (x :: g) :: gs

/-- Prepend a member's pieces onto a chunk list: every piece but the last
opens its own chunk; the last piece joins the first chunk that follows. -/
def attachPieces : List Node → List (List Node) → List (List Node)
  | [], chunks => chunks
  | [p], chunks => consHead p chunks
  | p :: ps, chunks => [p] :: attachPieces ps chunks

/-- The chunk decomposition (groups between paragraph breaks) of a whole
run, built member by member. -/
def runChunks (ns : List Node) : List (List Node) :=
  ns.foldr (fun m acc => attachPieces (piecesOf m) acc) [[]]

/-- A `prob` construct's contents with every direct `subprobset` wrapper
replaced in place by its own contents. -/
def flattenSubprobsets (contents : List TexNode) : List TexNode :=
  contents.flatMap (fun c => if isSubprobsetB c then c.contentsOf else [c])

/-- Whether every direct child's runtime type is in the node's allowed
set — what a successful sequence of `add_child` calls guarantees. -/
def childrenAllowed (t : Tag) (cs : List Node) : Bool :=
  cs.all (fun c => c.tag ∈ allowedChildTags t)

mutual

/-- A tree is valid when every parent-child edge satisfies the parent's
`allowed_child_types` constraint — the invariant `add_child` enforces,
so every tree the converter builds is valid. -/
def validB : Node → Bool
  | .problem cs => childrenAllowed .problem cs && validListB cs
  | .subproblem cs => childrenAllowed .subproblem cs && validListB cs
  | .paragraph cs => childrenAllowed .paragraph cs && validListB cs
  | .multipleChoices cs => childrenAllowed .multipleChoices cs && validListB cs
  | .multipleSelect cs => childrenAllowed .multipleSelect cs && validListB cs
  | .choice _ cs => childrenAllowed .choice cs && validListB cs
  | .fillInTheBlank cs => childrenAllowed .fillInTheBlank cs && validListB cs
  | .solution cs => childrenAllowed .solution cs && validListB cs
  | _ => true

/-- Validity of a forest. -/
def validListB : List Node → Bool
  | [] => true
  | c :: cs => validB c && validListB cs

end

mutual

/-- Whether a tree is free of `Paragraph` nodes — true of every tree the
converter produces, since no registered parser builds a `Paragraph`. -/
def noParagraphB : Node → Bool
  | .paragraph _ => false
  | .problem cs => noParagraphListB cs
  | .subproblem cs => noParagraphListB cs
  | .multipleChoices cs => noParagraphListB cs
  | .multipleSelect cs => noParagraphListB cs
  | .choice _ cs => noParagraphListB cs
  | .fillInTheBlank cs => noParagraphListB cs
  | .solution cs => noParagraphListB cs
  | _ => true

/-- Paragraph-freeness of a forest. -/
def noParagraphListB : List Node → Bool
  | [] => true
  | c :: cs => noParagraphB c && noParagraphListB cs

end

mutual

/-- Whether a tree contains a `Paragraph` node owning at least one
child (anywhere, the root included). -/
def hasNonemptyParagraphB : Node → Bool
  | .paragraph cs => !cs.isEmpty || hasNonemptyParagraphListB cs
  | .problem cs => hasNonemptyParagraphListB cs
  | .subproblem cs => hasNonemptyParagraphListB cs
  | .multipleChoices cs => hasNonemptyParagraphListB cs
  | .multipleSelect cs => hasNonemptyParagraphListB cs
  | .choice _ cs => hasNonemptyParagraphListB cs
  | .fillInTheBlank cs => hasNonemptyParagraphListB cs
  | .solution cs => hasNonemptyParagraphListB cs
  | _ => false

/-- The same search over a forest. -/
def hasNonemptyParagraphListB : List Node → Bool
  | [] => false
  | c :: cs => hasNonemptyParagraphB c || hasNonemptyParagraphListB cs

end

/-! ### Theorems settling the claims -/

/-- C1: on an internal node, `add_child` with a child whose runtime type
is in the parent's declared allowed-child-type set succeeds and appends
the child (observable last, in order, via `children()`); with a type
outside the set it fails at insertion time with `IllegalChild`
identifying parent and offending child. -/
theorem addChild_spec (parent child : Node) (h : parent.isInternal = true) :
    (child.tag ∈ allowedChildTags parent.tag →
      addChild parent child =
        .ok (parent.setChildren (parent.childrenOf ++ [child])) ∧
      (parent.setChildren (parent.childrenOf ++ [child])).childrenOf =
        parent.childrenOf ++ [child]) ∧
    (child.tag ∉ allowedChildTags parent.tag →
      addChild parent child = .error (.illegalChild parent child)) := by
  constructor
  · intro hm
    refine ⟨by simp [addChild, hm], ?_⟩
    cases parent <;> simp_all [Node.isInternal, Node.setChildren, Node.childrenOf]
  · intro hm
    simp [addChild, hm]

theorem addChild_spec_witness :
    addChild (.problem []) (.normalText "a") = .ok (.problem [.normalText "a"]) ∧
    addChild (.paragraph []) (.paragraph []) =
      .error (.illegalChild (.paragraph []) (.paragraph [])) := by
  constructor
  · exact ((addChild_spec (.problem []) (.normalText "a") (by decide)).1
      (by decide)).1
  · exact (addChild_spec (.paragraph []) (.paragraph []) (by decide)).2
      (by decide)

theorem nodeChildrenEq_iff (cs ds : List Node) :
    (cs.length = ds.length ∧ nodeChildrenEq cs ds = true) ↔
      List.Forall₂ (fun x y => nodeEq x y = true) cs ds := by
  induction cs generalizing ds with
  | nil => cases ds <;> simp [nodeChildrenEq]
  | cons x xs ih =>
    cases ds with
    | nil => simp [nodeChildrenEq]
    | cons y ys =>
      simp only [List.length_cons, List.forall₂_cons, nodeChildrenEq,
        Bool.and_eq_true]
      rw [← ih ys]
      constructor
      · rintro ⟨h1, h2, h3⟩
        exact ⟨h2, by omega, h3⟩
      · rintro ⟨h2, h1, h3⟩
        exact ⟨by omega, h2, h3⟩

theorem splitCharsOnBreak_ne_nil (l : List Char) : splitCharsOnBreak l ≠ [] := by
  induction l using splitCharsOnBreak.induct <;> simp [splitCharsOnBreak]
  all_goals split <;> simp_all

theorem splitCharsOnBreak_singleton (l p : List Char)
    (h : splitCharsOnBreak l = [p]) : p = l := by
  induction l using splitCharsOnBreak.induct generalizing p with
  | case1 => simpa [splitCharsOnBreak, eq_comm] using h
  | case2 rest ih =>
    rw [splitCharsOnBreak] at h
    simp at h
    exact absurd h.2 (splitCharsOnBreak_ne_nil rest)
  | case3 a b hc hnil ih => exact absurd hnil (splitCharsOnBreak_ne_nil b)
  | case4 a b hc d e hsp ih =>
    rw [splitCharsOnBreak.eq_3 a b hc, hsp] at h
    simp at h
    obtain ⟨hp, he⟩ := h
    subst he
    rw [← hp, ih d hsp]

theorem splitOnBreak_ne_nil (s : String) : splitOnBreak s ≠ [] := by
  simp [splitOnBreak, splitCharsOnBreak_ne_nil]

theorem splitOnBreak_singleton (s : String)
    (h : (splitOnBreak s).length = 1) : splitOnBreak s = [s] := by
  rcases hq : splitCharsOnBreak s.data with _ | ⟨q, qs⟩
  · exact absurd hq (splitCharsOnBreak_ne_nil s.data)
  · have hqs : qs = [] := by
      simp [splitOnBreak, hq] at h
      simpa using h
    subst hqs
    have := splitCharsOnBreak_singleton s.data q hq
    subst this
    simp [splitOnBreak, hq]

theorem mkTextOfSameType_textOf (m : Node) (h : isTextNodeB m = true) :
    mkTextOfSameType m m.textOf = m := by
  cases m <;> simp_all [isTextNodeB, mkTextOfSameType, Node.textOf]

theorem eligibleB_mkTextOfSameType (m : Node) (p : String) :
    eligibleB (mkTextOfSameType m p) = true := by
  cases m <;>
    simp [mkTextOfSameType, eligibleB, Node.tag, allowedChildTags,
      paragraphAllowedChildTypes]

theorem expandItem_text (m : Node) (h : isTextNodeB m = true) :
    expandItem m =
      List.intersperse none
        ((splitOnBreak m.textOf).map (fun p => some (mkTextOfSameType m p))) := by
  rw [expandItem, if_pos h, splitTextNodeIntoParagraphs]
  by_cases h1 : (splitOnBreak m.textOf).length == 1
  · rw [if_pos h1]
    rw [splitOnBreak_singleton _ (by simpa using h1)]
    simp [List.intersperse, mkTextOfSameType_textOf m h]
  · rw [if_neg h1]

theorem expandItem_nontext (m : Node) (h : isTextNodeB m = false) :
    expandItem m = [some m] := by
  simp [expandItem, h]

theorem splitOnNone_intersperse (ps : List Node) (h : ps ≠ []) :
    splitOnNone (List.intersperse none (ps.map some)) =
      ps.map (fun p => [p]) := by
  induction ps with
  | nil => simp at h
  | cons p ps ih =>
    cases ps with
    | nil => simp [List.intersperse, splitOnNone]
    | cons q qs =>
      have ih' := ih (by simp)
      simp only [List.map_cons, List.intersperse] at ih' ⊢
      simp [splitOnNone, ih']

theorem addChild_paragraph_eligible (cs0 : List Node) (x : Node)
    (hx : eligibleB x = true) :
    addChild (.paragraph cs0) x = .ok (.paragraph (cs0 ++ [x])) := by
  have hmem : x.tag ∈ allowedChildTags (Node.paragraph cs0).tag := by
    simpa [eligibleB, Node.tag] using hx
  simp [addChild, hmem, Node.setChildren, Node.childrenOf]

theorem foldlM_addChild_paragraph (g : List Node) (cs0 : List Node)
    (h : ∀ x ∈ g, eligibleB x = true) :
    List.foldlM addChild (Node.paragraph cs0) g = .ok (.paragraph (cs0 ++ g)) := by
  induction g generalizing cs0 with
  | nil => simp; rfl
  | cons x xs ih =>
    rw [List.foldlM_cons, addChild_paragraph_eligible cs0 x (h x (by simp))]
    show List.foldlM addChild (Node.paragraph (cs0 ++ [x])) xs = _
    rw [ih (cs0 ++ [x]) (fun y hy => h y (by simp [hy]))]
    simp

theorem mapM_mkParagraph (gs : List (List Node))
    (h : ∀ g ∈ gs, ∀ x ∈ g, eligibleB x = true) :
    gs.mapM (fun g => mkNode (.paragraph []) g) =
      .ok (gs.map (fun g => Node.paragraph g)) := by
  induction gs with
  | nil => rfl
  | cons g gs ih =>
    rw [List.mapM_cons]
    rw [show mkNode (.paragraph []) g = Except.ok (.paragraph g) by
      simpa [mkNode] using foldlM_addChild_paragraph g [] (h g (by simp))]
    rw [ih (fun g' hg' x hx => h g' (by simp [hg']) x hx)]
    rfl

theorem paragraphizeTextlikeNodes_single_text (m : Node)
    (h : isTextNodeB m = true) :
    paragraphizeTextlikeNodes [m] =
      .ok ((splitOnBreak m.textOf).map
        (fun p => Node.paragraph [mkTextOfSameType m p])) := by
  rw [paragraphizeTextlikeNodes]
  have he : expandRun [m] = expandItem m := by simp [expandRun]
  rw [he, expandItem_text m h]
  have hm : (splitOnBreak m.textOf).map (fun p => some (mkTextOfSameType m p)) =
      ((splitOnBreak m.textOf).map (fun p => mkTextOfSameType m p)).map some := by
    simp
  rw [hm, splitOnNone_intersperse _ (by simp [splitOnBreak_ne_nil])]
  have hfilter :
      (((splitOnBreak m.textOf).map (fun p => mkTextOfSameType m p)).map
          (fun p => [p])).filter (fun g => !g.isEmpty) =
        ((splitOnBreak m.textOf).map (fun p => mkTextOfSameType m p)).map
          (fun p => [p]) := by
    apply List.filter_eq_self.mpr
    intro g hg
    simp at hg
    obtain ⟨p, _, rfl⟩ := hg
    simp
  rw [hfilter]
  rw [mapM_mkParagraph _ (by
    intro g hg x hx
    simp at hg
    obtain ⟨p, _, rfl⟩ := hg
    simp at hx
    subst hx
    exact eligibleB_mkTextOfSameType m p)]
  simp

/-- C2 counterexample: a `BoldText` member whose text contains a
double-newline IS split by the pass and DOES introduce a paragraph
break, contrary to the claim that only `NormalText` members are split:
the run `[BoldText "a\n\nb"]` yields two paragraphs. -/
theorem boldTextIsSplit_cex :
    paragraphizeTextlikeNodes [.boldText "a\n\nb"] =
      .ok [.paragraph [.boldText "a"], .paragraph [.boldText "b"]] := rfl

/-- C2 (amended): in the splitting step of the paragraph pass, exactly
the `TextNode`-typed members (`NormalText`, `BoldText`, `ItalicText`)
are split at each double-newline occurrence of their raw text, with a
paragraph-break marker between consecutive pieces (a break-free text
splits into one piece, leaving the member untouched); members of every
other kind — in particular `InlineMath` and `InlineCode` — are never
split and never introduce a break. -/
theorem textNodeSplitting_spec (m : Node) :
    (isTextNodeB m = true →
      expandItem m =
        List.intersperse none
          ((splitOnBreak m.textOf).map (fun p => some (mkTextOfSameType m p)))) ∧
    (isTextNodeB m = false → expandItem m = [some m]) :=
  ⟨expandItem_text m, expandItem_nontext m⟩

theorem textNodeSplitting_spec_witness :
    expandItem (.boldText "a\n\nb") =
      List.intersperse none
        ((splitOnBreak (Node.boldText "a\n\nb").textOf).map
          (fun p => some (mkTextOfSameType (.boldText "a\n\nb") p))) ∧
    expandItem (.inlineMath "x\n\ny") = [some (.inlineMath "x\n\ny")] :=
  ⟨(textNodeSplitting_spec (.boldText "a\n\nb")).1 rfl,
   (textNodeSplitting_spec (.inlineMath "x\n\ny")).2 rfl⟩

/-- C9: an eligible run consisting of one text node whose text ends
exactly at a double-newline (so its split has an empty trailing piece)
still produces a trailing `Paragraph` containing the empty-text node:
empty paragraphs are legal output and are not suppressed. -/
theorem emptyTrailingParagraph_spec (m : Node) (h : isTextNodeB m = true)
    (hlast : (splitOnBreak m.textOf).getLast? = some "") :
    ∃ ps, paragraphizeTextlikeNodes [m] = .ok ps ∧
      ps.getLast? = some (.paragraph [mkTextOfSameType m ""]) := by
  refine ⟨_, paragraphizeTextlikeNodes_single_text m h, ?_⟩
  rw [List.getLast?_map, hlast]
  simp

theorem emptyTrailingParagraph_spec_witness :
    isTextNodeB (.normalText "x\n\n") = true ∧
    (splitOnBreak (Node.normalText "x\n\n").textOf).getLast? = some "" ∧
    ∃ ps, paragraphizeTextlikeNodes [.normalText "x\n\n"] = .ok ps ∧
      ps.getLast? = some (.paragraph [mkTextOfSameType (.normalText "x\n\n") ""]) :=
  ⟨rfl, rfl, emptyTrailingParagraph_spec (.normalText "x\n\n") rfl rfl⟩

theorem piecesOf_ne_nil (m : Node) : piecesOf m ≠ [] := by
  rw [piecesOf]
  split
  · simpa using splitOnBreak_ne_nil m.textOf
  · simp

theorem expandItem_eq_pieces (m : Node) :
    expandItem m = List.intersperse none ((piecesOf m).map some) := by
  by_cases h : isTextNodeB m
  · rw [expandItem_text m h, piecesOf, if_pos h]
    simp [List.map_map, Function.comp_def]
  · rw [expandItem_nontext m (by simpa using h), piecesOf, if_neg h]
    simp [List.intersperse]

theorem splitOnNone_memberBlock (ps : List Node) (rest : List (Option Node))
    (h : ps ≠ []) :
    splitOnNone (List.intersperse none (ps.map some) ++ rest) =
      attachPieces ps (splitOnNone rest) := by
  induction ps with
  | nil => exact absurd rfl h
  | cons p ps ih =>
    cases ps with
    | nil =>
      simp only [List.map_cons, List.map_nil, List.intersperse,
        List.cons_append, List.nil_append, attachPieces]
      rw [splitOnNone]
      cases hsp : splitOnNone rest with
      | nil => simp [consHead]
      | cons g gs => simp [consHead]
    | cons q qs =>
      simp only [List.map_cons, List.intersperse, List.cons_append] at ih ⊢
      rw [splitOnNone, splitOnNone]
      rw [ih (by simp)]
      simp [attachPieces]

theorem runChunks_cons (m : Node) (ms : List Node) :
    runChunks (m :: ms) = attachPieces (piecesOf m) (runChunks ms) := rfl

theorem splitOnNone_expandRun (ns : List Node) :
    splitOnNone (expandRun ns) = runChunks ns := by
  induction ns with
  | nil => rfl
  | cons m ms ih =>
    have hsplit : expandRun (m :: ms) = expandItem m ++ expandRun ms := by
      simp [expandRun]
    rw [hsplit, expandItem_eq_pieces,
      splitOnNone_memberBlock _ _ (piecesOf_ne_nil m), ih, runChunks_cons]

theorem attachPieces_ne_nil (ps : List Node) (chunks : List (List Node))
    (h : chunks ≠ []) : attachPieces ps chunks ≠ [] := by
  induction ps with
  | nil => simpa [attachPieces]
  | cons p ps ih =>
    cases ps with
    | nil =>
      cases chunks with
      | nil => exact absurd rfl h
      | cons g gs => simp [attachPieces, consHead]
    | cons q qs => simp [attachPieces]

theorem runChunks_ne_nil (ns : List Node) : runChunks ns ≠ [] := by
  induction ns with
  | nil => simp [runChunks]
  | cons m ms ih => rw [runChunks_cons]; exact attachPieces_ne_nil _ _ ih

theorem attachPieces_all_ne_nil (ps : List Node) (chunks : List (List Node))
    (hps : ps ≠ []) (htail : ∀ g ∈ chunks.tail, g ≠ []) :
    ∀ g ∈ attachPieces ps chunks, g ≠ [] := by
  induction ps with
  | nil => exact absurd rfl hps
  | cons p ps ih =>
    cases ps with
    | nil =>
      cases chunks with
      | nil => simp [attachPieces, consHead]
      | cons g gs =>
        intro g' hg'
        simp [attachPieces, consHead] at hg'
        rcases hg' with rfl | hg'
        · simp
        · exact htail g' (by simpa using hg')
    | cons q qs =>
      intro g' hg'
      simp only [attachPieces, List.mem_cons] at hg'
      rcases hg' with rfl | hg'
      · simp
      · exact ih (by simp) g' hg'

theorem runChunks_tail_ne_nil (ns : List Node) :
    ∀ g ∈ (runChunks ns).tail, g ≠ [] := by
  induction ns with
  | nil => simp [runChunks]
  | cons m ms ih =>
    have hall := attachPieces_all_ne_nil (piecesOf m) (runChunks ms)
      (piecesOf_ne_nil m) ih
    rw [runChunks_cons]
    intro g hg
    exact hall g (List.mem_of_mem_tail hg)

theorem runChunks_all_ne_nil (ns : List Node) (h : ns ≠ []) :
    ∀ g ∈ runChunks ns, g ≠ [] := by
  cases ns with
  | nil => exact absurd rfl h
  | cons m ms =>
    rw [runChunks_cons]
    exact attachPieces_all_ne_nil (piecesOf m) (runChunks ms)
      (piecesOf_ne_nil m) (runChunks_tail_ne_nil ms)

theorem attachPieces_length (ps : List Node) (chunks : List (List Node))
    (hps : ps ≠ []) (hchunks : chunks ≠ []) :
    (attachPieces ps chunks).length = (ps.length - 1) + chunks.length := by
  induction ps with
  | nil => exact absurd rfl hps
  | cons p ps ih =>
    cases ps with
    | nil =>
      cases chunks with
      | nil => exact absurd rfl hchunks
      | cons g gs => simp [attachPieces, consHead]
    | cons q qs =>
      have := ih (by simp)
      simp only [attachPieces, List.length_cons] at this ⊢
      omega

theorem piecesOf_length (m : Node) :
    (piecesOf m).length - 1 =
      (if isTextNodeB m then (splitOnBreak m.textOf).length - 1 else 0) := by
  rw [piecesOf]
  split <;> simp

theorem runChunks_length (ns : List Node) :
    (runChunks ns).length = runBreakCount ns + 1 := by
  induction ns with
  | nil => simp [runChunks, runBreakCount]
  | cons m ms ih =>
    rw [runChunks_cons,
      attachPieces_length _ _ (piecesOf_ne_nil m) (runChunks_ne_nil ms), ih]
    have h1 := piecesOf_length m
    have h2 : runBreakCount (m :: ms) =
        (if isTextNodeB m then (splitOnBreak m.textOf).length - 1 else 0) +
          runBreakCount ms := by
      simp [runBreakCount]
    omega

theorem piecesOf_single (m : Node)
    (h : (if isTextNodeB m then (splitOnBreak m.textOf).length - 1 else 0) = 0) :
    piecesOf m = [m] := by
  rw [piecesOf]
  split
  · rename_i ht
    rw [if_pos ht] at h
    have hlen : (splitOnBreak m.textOf).length = 1 := by
      have := splitOnBreak_ne_nil m.textOf
      have : (splitOnBreak m.textOf).length ≠ 0 := by
        simpa [List.length_eq_zero] using this
      omega
    rw [splitOnBreak_singleton _ hlen]
    simp [mkTextOfSameType_textOf m ht]
  · rfl

theorem runChunks_all_single (ns : List Node)
    (h : ∀ m ∈ ns, piecesOf m = [m]) : runChunks ns = [ns] := by
  induction ns with
  | nil => rfl
  | cons m ms ih =>
    rw [runChunks_cons, h m (by simp), ih (fun m' hm' => h m' (by simp [hm']))]
    rfl

theorem attachPieces_mem (ps : List Node) (chunks : List (List Node))
    (g : List Node) (x : Node) (hg : g ∈ attachPieces ps chunks) (hx : x ∈ g) :
    x ∈ ps ∨ ∃ g' ∈ chunks, x ∈ g' := by
  induction ps with
  | nil => exact .inr ⟨g, hg, hx⟩
  | cons p ps ih =>
    cases ps with
    | nil =>
      cases chunks with
      | nil =>
        simp [attachPieces, consHead] at hg
        subst hg
        simp at hx
        simp [hx]
      | cons g0 gs =>
        simp only [attachPieces, consHead, List.mem_cons] at hg
        rcases hg with rfl | hg
        · rcases List.mem_cons.mp hx with rfl | hx
          · simp
          · exact .inr ⟨g0, by simp, hx⟩
        · exact .inr ⟨g, by simp [hg], hx⟩
    | cons q qs =>
      simp only [attachPieces, List.mem_cons] at hg
      rcases hg with rfl | hg
      · simp at hx
        simp [hx]
      · rcases ih hg with hx' | ⟨g', hg', hx'⟩
        · exact .inl (by simp [hx'])
        · exact .inr ⟨g', hg', hx'⟩

theorem runChunks_mem (ns : List Node) (g : List Node) (x : Node)
    (hg : g ∈ runChunks ns) (hx : x ∈ g) : ∃ m ∈ ns, x ∈ piecesOf m := by
  induction ns generalizing g with
  | nil =>
    simp [runChunks] at hg
    subst hg
    simp at hx
  | cons m ms ih =>
    rw [runChunks_cons] at hg
    rcases attachPieces_mem _ _ _ _ hg hx with hp | ⟨g', hg', hx'⟩
    · exact ⟨m, by simp, hp⟩
    · obtain ⟨m', hm', hp'⟩ := ih g' hg' hx'
      exact ⟨m', by simp [hm'], hp'⟩

theorem piecesOf_eligible (m : Node) (x : Node) (hm : eligibleB m = true)
    (hx : x ∈ piecesOf m) : eligibleB x = true := by
  rw [piecesOf] at hx
  split at hx
  · simp at hx
    obtain ⟨p, _, rfl⟩ := hx
    exact eligibleB_mkTextOfSameType m p
  · simp at hx
    subst hx
    exact hm

/-- C3: the paragraph pass turns an eligible run holding `k`
double-newline occurrences inside its text members into exactly `k + 1`
`Paragraph` nodes; in particular a run with zero double-newlines becomes
exactly one `Paragraph` holding all the run's members, unsplit and in
order. -/
theorem paragraphCount_spec (ns : List Node) (h0 : ns ≠ [])
    (h1 : ∀ m ∈ ns, eligibleB m = true) :
    ∃ ps, paragraphizeTextlikeNodes ns = .ok ps ∧
      ps.length = runBreakCount ns + 1 ∧
      (runBreakCount ns = 0 → ps = [.paragraph ns]) := by
  have hfilter : (runChunks ns).filter (fun g => !g.isEmpty) = runChunks ns := by
    apply List.filter_eq_self.mpr
    intro g hg
    simpa using runChunks_all_ne_nil ns h0 g hg
  have helig : ∀ g ∈ runChunks ns, ∀ x ∈ g, eligibleB x = true := by
    intro g hg x hx
    obtain ⟨m, hm, hp⟩ := runChunks_mem ns g x hg hx
    exact piecesOf_eligible m x (h1 m hm) hp
  refine ⟨(runChunks ns).map (fun g => Node.paragraph g), ?_, ?_, ?_⟩
  · rw [paragraphizeTextlikeNodes]
    rw [splitOnNone_expandRun, hfilter, mapM_mkParagraph _ helig]
  · simp [runChunks_length]
  · intro hk
    have hs : ∀ m ∈ ns, piecesOf m = [m] := by
      intro m hm
      apply piecesOf_single
      have : ∀ v ∈ ns.map (fun n =>
          if isTextNodeB n then (splitOnBreak n.textOf).length - 1 else 0), v = 0 :=
        List.sum_eq_zero_iff.mp hk
      exact this _ (List.mem_map_of_mem _ hm)
    rw [runChunks_all_single ns hs]
    rfl

theorem paragraphCount_spec_witness :
    ([Node.normalText "a\n\nb", Node.inlineMath "m"] ≠ []) ∧
    (∀ m ∈ [Node.normalText "a\n\nb", Node.inlineMath "m"], eligibleB m = true) ∧
    ∃ ps, paragraphizeTextlikeNodes [Node.normalText "a\n\nb", Node.inlineMath "m"] =
        .ok ps ∧
      ps.length = runBreakCount [Node.normalText "a\n\nb", Node.inlineMath "m"] + 1 ∧
      (runBreakCount [Node.normalText "a\n\nb", Node.inlineMath "m"] = 0 →
        ps = [.paragraph [Node.normalText "a\n\nb", Node.inlineMath "m"]]) :=
  ⟨by simp, by decide,
   paragraphCount_spec [Node.normalText "a\n\nb", Node.inlineMath "m"]
     (by simp) (by decide)⟩

set_option maxHeartbeats 2000000 in
/-- C6: structural equality (`__eq__`) of two nodes holds exactly when
they have the same concrete type, the same declared attribute values,
the same number of children, and pairwise-recursively equal children in
order; so any single differing attribute, child count or child order
falsifies it. -/
theorem nodeEq_spec (a b : Node) :
    nodeEq a b = true ↔
      (a.tag = b.tag ∧ attrsOf a = attrsOf b ∧
        a.childrenOf.length = b.childrenOf.length ∧
        List.Forall₂ (fun x y => nodeEq x y = true) a.childrenOf b.childrenOf) := by
  cases a <;> cases b <;>
    first
    | (simp [nodeEq, Node.tag]; done)
    | (simp [nodeEq, Node.tag, Node.childrenOf, attrsOf, ← nodeChildrenEq_iff]
       done)
    | (simp [nodeEq, Node.tag, Node.childrenOf, attrsOf, ← nodeChildrenEq_iff]
       tauto)

theorem tag_setChildren (n : Node) (cs : List Node) :
    (n.setChildren cs).tag = n.tag := by
  cases n <;> rfl

theorem isInternal_setChildren (n : Node) (cs : List Node) :
    (n.setChildren cs).isInternal = n.isInternal := by
  cases n <;> rfl

theorem childrenOf_setChildren (n : Node) (cs : List Node)
    (h : n.isInternal = true) : (n.setChildren cs).childrenOf = cs := by
  cases n <;> simp_all [Node.isInternal, Node.setChildren, Node.childrenOf]

theorem setChildren_setChildren (n : Node) (cs ds : List Node) :
    (n.setChildren cs).setChildren ds = n.setChildren ds := by
  cases n <;> rfl

theorem addChild_internal_ok (n x : Node) (cs0 : List Node)
    (hint : n.isInternal = true)
    (hx : x.tag ∈ allowedChildTags n.tag) :
    addChild (n.setChildren cs0) x = .ok (n.setChildren (cs0 ++ [x])) := by
  rw [addChild, if_pos (by rwa [tag_setChildren]),
    childrenOf_setChildren n cs0 hint, setChildren_setChildren]

theorem foldlM_addChild_internal (n : Node) (g cs0 : List Node)
    (hint : n.isInternal = true)
    (h : ∀ x ∈ g, x.tag ∈ allowedChildTags n.tag) :
    List.foldlM addChild (n.setChildren cs0) g = .ok (n.setChildren (cs0 ++ g)) := by
  induction g generalizing cs0 with
  | nil => simp; rfl
  | cons x xs ih =>
    rw [List.foldlM_cons, addChild_internal_ok n x cs0 hint (h x (by simp))]
    show List.foldlM addChild (n.setChildren (cs0 ++ [x])) xs = _
    rw [ih (cs0 ++ [x]) (fun y hy => h y (by simp [hy]))]
    simp

theorem mkNode_internal_ok (n : Node) (g : List Node)
    (hint : n.isInternal = true)
    (h : ∀ x ∈ g, x.tag ∈ allowedChildTags n.tag) :
    mkNode (n.setChildren []) g = .ok (n.setChildren g) := by
  rw [mkNode, foldlM_addChild_internal n g [] hint h]
  simp

/-- C5: converting an `includegraphics` construct whose path cannot be
read relative to the problem directory fails with the
resource-resolution (file-not-found) error identifying the offending
path, and a `prob` conversion containing such a construct yields that
same error — no partial Problem tree is returned. -/
theorem includegraphicsUnresolvable_spec (ctx : Ctx) (p : String)
    (args : List String) (envArgs : List String) (es : String)
    (h : ctx.files (p.replace "\\thisdir/" "") = none) :
    convertSoupNode ctx (.cmd "includegraphics" (p :: args)) =
      .error (.resourceResolution (p.replace "\\thisdir/" "")) ∧
    convertSoupNode ctx
        (.env "prob" envArgs es [.cmd "includegraphics" (p :: args)]) =
      .error (.resourceResolution (p.replace "\\thisdir/" "")) := by
  have h1 : convertSoupNode ctx (.cmd "includegraphics" (p :: args)) =
      .error (.resourceResolution (p.replace "\\thisdir/" "")) := by
    rw [convertSoupNode]
    simp [h]
  refine ⟨h1, ?_⟩
  rw [convertSoupNode, convertProbContents]
  simp [isSubprobsetB, TexNode.nameOf, h1]

theorem includegraphicsUnresolvable_spec_witness :
    Ctx.files ⟨fun _ => none⟩ ("img.png".replace "\\thisdir/" "") = none ∧
    convertSoupNode ⟨fun _ => none⟩ (.cmd "includegraphics" ["img.png"]) =
      .error (.resourceResolution ("img.png".replace "\\thisdir/" "")) ∧
    convertSoupNode ⟨fun _ => none⟩
        (.env "prob" [] "" [.cmd "includegraphics" ["img.png"]]) =
      .error (.resourceResolution ("img.png".replace "\\thisdir/" "")) :=
  ⟨rfl,
   (includegraphicsUnresolvable_spec ⟨fun _ => none⟩ "img.png" [] [] "" rfl).1,
   (includegraphicsUnresolvable_spec ⟨fun _ => none⟩ "img.png" [] [] "" rfl).2⟩

theorem segmentLoop_skip (p : TexNode → Bool) (s l cur : List TexNode)
    (segs : List (List TexNode)) (hs : ∀ x ∈ s, p x = false) :
    segmentLoop p (s ++ l) cur segs = segmentLoop p l (cur ++ s) segs := by
  induction s generalizing cur with
  | nil => simp
  | cons x s ih =>
    have hx : p x = false := hs x (by simp)
    rw [List.cons_append, segmentLoop, if_neg (by simp [hx])]
    rw [ih (cur ++ [x]) (fun y hy => hs y (by simp [hy]))]
    simp

theorem segmentList_twoMarkers (p : TexNode → Bool) (m1 m2 : TexNode)
    (s1 s2 : List TexNode) (_hm1 : p m1 = true) (hm2 : p m2 = true)
    (hs1 : ∀ x ∈ s1, p x = false) (hs2 : ∀ x ∈ s2, p x = false) :
    segmentList p (m1 :: (s1 ++ m2 :: s2)) = [m1 :: s1, m2 :: s2] := by
  rw [segmentList, segmentLoop, if_neg (by simp)]
  rw [show ([] : List TexNode) ++ [m1] = [m1] from rfl]
  rw [segmentLoop_skip p s1 (m2 :: s2) [m1] [] hs1]
  rw [segmentLoop, if_pos (by simp [hm2])]
  rw [show s2 = s2 ++ [] by simp]
  rw [segmentLoop_skip p s2 [] [m2] _ hs2]
  rw [segmentLoop, if_neg (by simp)]
  simp

/-- C4: in a `choices` construct whose contents begin with a choice
marker, segmentation starts a new segment at each `choice` /
`correctchoice` marker and assigns the following non-marker nodes to
that segment until the next marker; each segment becomes one `Choice`
with `correct` true exactly for a `correctchoice` marker and children
the converted remainder of the segment, marker excluded.  In particular
contents `[choice, A, B, correctchoice, C]` yield exactly the two nodes
`Choice(correct=false, [a, b])` and `Choice(correct=true, [c])`. -/
theorem choiceSegmentation_spec (ctx : Ctx) (es : String) (A B C : TexNode)
    (a b c : Node)
    (hA : isChoiceMarker A = false) (hB : isChoiceMarker B = false)
    (hC : isChoiceMarker C = false)
    (ha : convertSoupNode ctx A = .ok a) (hb : convertSoupNode ctx B = .ok b)
    (hc : convertSoupNode ctx C = .ok c)
    (hae : a.tag ∈ allowedChildTags Tag.choice)
    (hbe : b.tag ∈ allowedChildTags Tag.choice)
    (hce : c.tag ∈ allowedChildTags Tag.choice) :
    convertSoupNode ctx
        (.env "choices" [] es
          [.cmd "choice" [], A, B, .cmd "correctchoice" [], C]) =
      .ok (.multipleChoices [.choice false [a, b], .choice true [c]]) := by
  have hseg : segmentList isChoiceMarker
      [TexNode.cmd "choice" [], A, B, TexNode.cmd "correctchoice" [], C] =
      [[.cmd "choice" [], A, B], [.cmd "correctchoice" [], C]] := by
    have h := segmentList_twoMarkers isChoiceMarker
      (.cmd "choice" []) (.cmd "correctchoice" []) [A, B] [C]
      rfl rfl
      (by intro x hx
          simp at hx
          rcases hx with rfl | rfl
          · exact hA
          · exact hB)
      (by intro x hx
          simp at hx
          subst hx
          exact hC)
    simpa using h
  have hnil : convertEach ctx [] = .ok [] := by rw [convertEach]
  have hconv1 : convertEach ctx [A, B] = .ok [a, b] := by
    rw [convertEach]
    simp only [ha]
    rw [convertEach]
    simp only [hb, hnil]
  have hconv2 : convertEach ctx [C] = .ok [c] := by
    rw [convertEach]
    simp only [hc, hnil]
  have hmk1 : mkNode (.choice false []) [a, b] = .ok (.choice false [a, b]) := by
    exact mkNode_internal_ok (.choice false []) [a, b] rfl (by
      intro x hx
      simp at hx
      rcases hx with rfl | rfl
      · exact hae
      · exact hbe)
  have hmk2 : mkNode (.choice true []) [c] = .ok (.choice true [c]) := by
    exact mkNode_internal_ok (.choice true []) [c] rfl (by
      intro x hx
      simp at hx
      subst hx
      exact hce)
  have hb1 : ((("choice" : String)) == "correctchoice") = false := by decide
  have hb2 : ((("correctchoice" : String)) == "correctchoice") = true := by decide
  have hsegs : convertSegments ctx
      [[TexNode.cmd "choice" [], A, B], [TexNode.cmd "correctchoice" [], C]] =
      .ok [.choice false [a, b], .choice true [c]] := by
    have hnil2 : convertSegments ctx [] = .ok [] := by rw [convertSegments]
    rw [convertSegments]
    simp only [TexNode.nameOf, hb1, hconv1, hmk1]
    rw [convertSegments]
    simp only [TexNode.nameOf, hb2, hconv2, hmk2, hnil2]
  rw [convertSoupNode]
  simp only [Bool.false_eq_true, if_false, hseg, hsegs]
  exact mkNode_internal_ok (.multipleChoices []) _ rfl (by
    intro x hx
    simp at hx
    rcases hx with rfl | rfl
    · simp [Node.tag, allowedChildTags]
    · simp [Node.tag, allowedChildTags])

theorem choiceSegmentation_spec_witness :
    convertSoupNode ⟨fun _ => none⟩
        (.env "choices" [] ""
          [.cmd "choice" [], .text "A", .text "B", .cmd "correctchoice" [],
           .text "C"]) =
      .ok (.multipleChoices
        [.choice false [.normalText "A", .normalText "B"],
         .choice true [.normalText "C"]]) :=
  choiceSegmentation_spec ⟨fun _ => none⟩ "" (.text "A") (.text "B") (.text "C")
    (.normalText "A") (.normalText "B") (.normalText "C")
    rfl rfl rfl (by rw [convertSoupNode]) (by rw [convertSoupNode])
    (by rw [convertSoupNode]) (by decide) (by decide) (by decide)

theorem setChildren_childrenOf (n : Node) (h : n.isInternal = true) :
    n.setChildren n.childrenOf = n := by
  cases n <;> simp_all [Node.isInternal, Node.setChildren, Node.childrenOf]

theorem convertAddEach_nil (ctx : Ctx) (acc : Node) :
    convertAddEach ctx acc [] = .ok acc := by
  rw [convertAddEach]

theorem convertAddEach_append (ctx : Ctx) (l1 l2 : List TexNode) (acc : Node) :
    convertAddEach ctx acc (l1 ++ l2) =
      match convertAddEach ctx acc l1 with
      | .error e => .error e
      | .ok acc' => convertAddEach ctx acc' l2 := by
  induction l1 generalizing acc with
  | nil => rw [convertAddEach_nil, List.nil_append]
  | cons c cs ih =>
    rw [List.cons_append, convertAddEach, convertAddEach]
    cases h1 : convertSoupNode ctx c with
    | error e => rfl
    | ok n =>
      cases h2 : addChild acc n with
      | error e => simp [h2]
      | ok acc' => simp [h2, ih acc']

theorem convertProbContents_eq (ctx : Ctx) (cs : List TexNode) (acc : Node) :
    convertProbContents ctx acc cs =
      convertAddEach ctx acc (flattenSubprobsets cs) := by
  induction cs generalizing acc with
  | nil =>
    rw [convertProbContents]
    rw [show flattenSubprobsets [] = [] from rfl, convertAddEach_nil]
  | cons c cs ih =>
    have hflat : flattenSubprobsets (c :: cs) =
        (if isSubprobsetB c then c.contentsOf else [c]) ++ flattenSubprobsets cs := by
      simp [flattenSubprobsets]
    rw [convertProbContents, hflat, convertAddEach_append]
    by_cases hsub : isSubprobsetB c
    · rw [if_pos hsub, if_pos hsub]
      cases h1 : convertAddEach ctx acc c.contentsOf with
      | error e => rfl
      | ok acc' => exact ih acc'
    · rw [if_neg hsub, if_neg hsub, convertAddEach]
      cases h1 : convertSoupNode ctx c with
      | error e => rfl
      | ok n =>
        cases h2 : addChild acc n with
        | error e => simp [h2]
        | ok acc' => simp [h2, ih acc', convertAddEach_nil]

theorem convertAddEach_ok_shape (ctx : Ctx) (l : List TexNode) (acc t : Node)
    (hint : acc.isInternal = true) (h : convertAddEach ctx acc l = .ok t) :
    ∃ ns, convertEach ctx l = .ok ns ∧
      t = acc.setChildren (acc.childrenOf ++ ns) := by
  induction l generalizing acc with
  | nil =>
    rw [convertAddEach_nil] at h
    refine ⟨[], by rw [convertEach], ?_⟩
    cases h
    simp [setChildren_childrenOf t hint]
  | cons c cs ih =>
    rw [convertAddEach] at h
    cases h1 : convertSoupNode ctx c with
    | error e => rw [h1] at h; simp at h
    | ok n =>
      rw [h1] at h
      simp at h
      cases h2 : addChild acc n with
      | error e => rw [h2] at h; simp at h
      | ok acc' =>
        rw [h2] at h
        simp at h
        have hacc' : acc' = acc.setChildren (acc.childrenOf ++ [n]) := by
          rw [addChild] at h2
          split at h2
          · injection h2 with h3
            exact h3.symm
          · exact absurd h2 (by simp)
        have hint' : acc'.isInternal = true := by
          rw [hacc', isInternal_setChildren]; exact hint
        obtain ⟨ns, hns, hts⟩ := ih acc' hint' h
        refine ⟨n :: ns, ?_, ?_⟩
        · rw [convertEach, h1, hns]
        · rw [hts, hacc', setChildren_setChildren,
            childrenOf_setChildren _ _ hint]
          simp

/-- C7: converting a `prob` construct equals converting it with every
direct `subprobset` child unwrapped in place — the subprobset's own
children are converted and attached straight to the Problem as siblings,
in their original positions; consequently a successful conversion yields
a Problem node whose children are exactly the conversions of the
flattened contents, with no intermediate wrapper node. -/
theorem probUnwrapsSubprobset_spec (ctx : Ctx) (args : List String)
    (es : String) (contents : List TexNode) :
    convertSoupNode ctx (.env "prob" args es contents) =
      convertAddEach ctx (.problem []) (flattenSubprobsets contents) ∧
    ∀ t, convertSoupNode ctx (.env "prob" args es contents) = .ok t →
      ∃ ns, convertEach ctx (flattenSubprobsets contents) = .ok ns ∧
        t = .problem ns := by
  have h1 : convertSoupNode ctx (.env "prob" args es contents) =
      convertProbContents ctx (.problem []) contents := by rw [convertSoupNode]
  constructor
  · rw [h1, convertProbContents_eq]
  · intro t ht
    rw [h1, convertProbContents_eq] at ht
    obtain ⟨ns, hns, hts⟩ :=
      convertAddEach_ok_shape ctx (flattenSubprobsets contents) (.problem []) t
        rfl ht
    exact ⟨ns, hns, by simpa [Node.setChildren, Node.childrenOf] using hts⟩

theorem probUnwrapsSubprobset_spec_witness :
    ∃ ns, convertEach ⟨fun _ => none⟩
        (flattenSubprobsets
          [.env "subprobset" [] "" [.env "subprob" [] "" []], .text "x"]) =
      .ok ns ∧
      Node.problem [.subproblem [], .normalText "x"] = .problem ns :=
  (probUnwrapsSubprobset_spec ⟨fun _ => none⟩ [] ""
      [.env "subprobset" [] "" [.env "subprob" [] "" []], .text "x"]).2
    (.problem [.subproblem [], .normalText "x"])
    (by
      simp [convertSoupNode, convertProbContents, convertAddEach, convertEach,
        isSubprobsetB, TexNode.nameOf, TexNode.contentsOf, addChild, mkNode,
        Node.tag, allowedChildTags, problemAllowedChildTypes, Node.setChildren,
        Node.childrenOf, List.foldlM, pure, Except.pure])

theorem groupRuns_cons (p : Node → Bool) (c : Node) (cs : List Node) :
    groupRuns p (c :: cs) =
      (p c, c :: cs.takeWhile (fun x => p x == p c)) ::
        groupRuns p (cs.dropWhile (fun x => p x == p c)) := by
  rw [groupRuns]

theorem groupRuns_sub (p : Node → Bool) (l : List Node) :
    ∀ b g, (b, g) ∈ groupRuns p l → ∀ x ∈ g, x ∈ l := by
  induction l using groupRuns.induct p with
  | case1 => intro b g hg; simp [groupRuns] at hg
  | case2 c cs ih =>
    intro b g hg x hx
    rw [groupRuns_cons] at hg
    rcases List.mem_cons.mp hg with heq | hmem
    · rw [Prod.mk.injEq] at heq
      obtain ⟨rfl, rfl⟩ := heq
      rcases List.mem_cons.mp hx with rfl | hx'
      · simp
      · exact List.mem_cons_of_mem c ((List.takeWhile_sublist _).subset hx')
    · exact List.mem_cons_of_mem c
        ((List.dropWhile_sublist _).subset (ih b g hmem x hx))

theorem groupRuns_uniform (p : Node → Bool) (l : List Node) :
    ∀ b g, (b, g) ∈ groupRuns p l → ∀ x ∈ g, p x = b := by
  induction l using groupRuns.induct p with
  | case1 => intro b g hg; simp [groupRuns] at hg
  | case2 c cs ih =>
    intro b g hg x hx
    rw [groupRuns_cons] at hg
    rcases List.mem_cons.mp hg with heq | hmem
    · rw [Prod.mk.injEq] at heq
      obtain ⟨rfl, rfl⟩ := heq
      rcases List.mem_cons.mp hx with rfl | hx'
      · rfl
      · simpa using List.mem_takeWhile_imp hx'
    · exact ih b g hmem x hx

theorem groupRuns_cover (p : Node → Bool) (l : List Node) :
    ∀ x ∈ l, ∃ b g, (b, g) ∈ groupRuns p l ∧ x ∈ g := by
  induction l using groupRuns.induct p with
  | case1 => intro x hx; simp at hx
  | case2 c cs ih =>
    intro x hx
    rw [groupRuns_cons]
    rcases List.mem_cons.mp hx with rfl | hx'
    · exact ⟨p x, x :: cs.takeWhile (fun y => p y == p x), by simp, by simp⟩
    · by_cases ht : x ∈ cs.takeWhile (fun y => p y == p c)
      · exact ⟨p c, c :: cs.takeWhile (fun y => p y == p c), by simp,
          by simp [ht]⟩
      · have hx'' : x ∈ cs.dropWhile (fun y => p y == p c) := by
          have : cs.takeWhile (fun y => p y == p c) ++
              cs.dropWhile (fun y => p y == p c) = cs :=
            List.takeWhile_append_dropWhile _ _
          have hmem : x ∈ cs.takeWhile (fun y => p y == p c) ++
              cs.dropWhile (fun y => p y == p c) := by rw [this]; exact hx'
          rcases List.mem_append.mp hmem with h | h
          · exact absurd h ht
          · exact h
        obtain ⟨b, g, hg, hxg⟩ := ih x hx''
        exact ⟨b, g, by simp [hg], hxg⟩

theorem addChild_ok_tag (acc x y : Node) (h : addChild acc x = .ok y) :
    y.tag = acc.tag := by
  rw [addChild] at h
  split at h
  · injection h with h'
    rw [← h', tag_setChildren]
  · exact absurd h (by simp)

theorem foldlM_addChild_tag (ps : List Node) :
    ∀ acc y, List.foldlM addChild acc ps = .ok y → y.tag = acc.tag := by
  induction ps with
  | nil =>
    intro acc y h
    have h' : (Except.ok acc : Except Err Node) = Except.ok y := h
    injection h' with h''
    rw [← h'']
  | cons x xs ih =>
    intro acc y h
    rw [List.foldlM_cons] at h
    cases h1 : addChild acc x with
    | error e => rw [h1] at h; simp [bind, Except.bind] at h
    | ok acc' =>
      rw [h1] at h
      simp only [bind, Except.bind] at h
      rw [ih acc' y h, addChild_ok_tag acc x acc' h1]

theorem paragraphizeNoneligible_tag (g : List Node) :
    ∀ acc y, paragraphizeNoneligible acc g = .ok y → y.tag = acc.tag := by
  induction g with
  | nil =>
    intro acc y h
    rw [paragraphizeNoneligible] at h
    injection h with h'
    rw [h']
  | cons c cs ih =>
    intro acc y h
    rw [paragraphizeNoneligible] at h
    cases h1 : (if c.isInternal = true then paragraphize c else .ok c) with
    | error e => rw [h1] at h; simp at h
    | ok c' =>
      rw [h1] at h
      simp at h
      cases h2 : addChild acc c' with
      | error e => rw [h2] at h; simp at h
      | ok acc' =>
        rw [h2] at h
        simp at h
        rw [ih acc' y h, addChild_ok_tag acc c' acc' h2]

theorem paragraphizeGroups_tag (gs : List (Bool × List Node)) :
    ∀ acc y, paragraphizeGroups acc gs = .ok y → y.tag = acc.tag := by
  induction gs with
  | nil =>
    intro acc y h
    rw [paragraphizeGroups] at h
    injection h with h'
    rw [h']
  | cons bg gs ih =>
    obtain ⟨b, g⟩ := bg
    intro acc y h
    rw [paragraphizeGroups] at h
    by_cases hb : b
    · rw [if_pos hb] at h
      cases h1 : paragraphizeTextlikeNodes g with
      | error e => rw [h1] at h; simp at h
      | ok ps =>
        rw [h1] at h
        simp at h
        cases h2 : ps.foldlM addChild acc with
        | error e => rw [h2] at h; simp at h
        | ok acc' =>
          rw [h2] at h
          simp at h
          rw [ih acc' y h, foldlM_addChild_tag ps acc acc' h2]
    · rw [if_neg hb] at h
      cases h1 : paragraphizeNoneligible acc g with
      | error e => rw [h1] at h; simp at h
      | ok acc' =>
        rw [h1] at h
        simp at h
        rw [ih acc' y h, paragraphizeNoneligible_tag g acc acc' h1]

theorem paragraphize_tag (n n' : Node) (h : paragraphize n = .ok n') :
    n'.tag = n.tag := by
  rw [paragraphize] at h
  have := paragraphizeGroups_tag _ _ _ h
  rwa [tag_setChildren] at this

theorem eligibleB_tag (a b : Node) (h : a.tag = b.tag) :
    eligibleB a = eligibleB b := by
  simp [eligibleB, h]

theorem addChild_paragraph_not_eligible (cs0 : List Node) (x : Node)
    (hx : eligibleB x = false) :
    addChild (.paragraph cs0) x = .error (.illegalChild (.paragraph cs0) x) := by
  rw [addChild, if_neg]
  intro hmem
  rw [show (Node.paragraph cs0).tag = Tag.paragraph from rfl] at hmem
  have : eligibleB x = true := by simpa [eligibleB] using hmem
  rw [this] at hx
  exact absurd hx (by simp)

theorem paragraphizeTextlike_value (ns : List Node)
    (h1 : ∀ m ∈ ns, eligibleB m = true) :
    paragraphizeTextlikeNodes ns =
      .ok (((runChunks ns).filter (fun g => !g.isEmpty)).map
        (fun g => Node.paragraph g)) := by
  rw [paragraphizeTextlikeNodes, splitOnNone_expandRun]
  exact mapM_mkParagraph _ (fun g hg x hx => by
    obtain ⟨m, hm, hp⟩ := runChunks_mem ns g x (List.mem_of_mem_filter hg) hx
    exact piecesOf_eligible m x (h1 m hm) hp)

theorem paragraphize_paragraph_fails (cs : List Node) (h : cs ≠ []) :
    ∀ r, paragraphize (.paragraph cs) ≠ .ok r := by
  intro r hr
  obtain ⟨c, cs', rfl⟩ : ∃ c cs', cs = c :: cs' := by
    cases cs with
    | nil => exact absurd rfl h
    | cons c cs' => exact ⟨c, cs', rfl⟩
  rw [paragraphize] at hr
  rw [show (Node.paragraph (c :: cs')).setChildren [] = .paragraph [] from rfl,
    show (Node.paragraph (c :: cs')).childrenOf = c :: cs' from rfl,
    groupRuns_cons, paragraphizeGroups] at hr
  by_cases hc : eligibleB c
  · rw [if_pos hc] at hr
    have hall : ∀ m ∈ c :: cs'.takeWhile (fun x => eligibleB x == eligibleB c),
        eligibleB m = true := by
      intro m hm
      rcases List.mem_cons.mp hm with rfl | hm'
      · exact hc
      · have := List.mem_takeWhile_imp hm'
        simp at this
        rw [this, hc]
    rw [paragraphizeTextlike_value _ hall] at hr
    have hfil : ((runChunks
        (c :: cs'.takeWhile (fun x => eligibleB x == eligibleB c))).filter
          (fun g => !g.isEmpty)) =
        runChunks (c :: cs'.takeWhile (fun x => eligibleB x == eligibleB c)) :=
      List.filter_eq_self.mpr (fun g hg => by
        simpa using runChunks_all_ne_nil _ (by simp) g hg)
    rw [hfil] at hr
    obtain ⟨g0, gs0, hchunks⟩ :
        ∃ g0 gs0, runChunks
            (c :: cs'.takeWhile (fun x => eligibleB x == eligibleB c)) =
          g0 :: gs0 := by
      cases hrc : runChunks
          (c :: cs'.takeWhile (fun x => eligibleB x == eligibleB c)) with
      | nil => exact absurd hrc (runChunks_ne_nil _)
      | cons g0 gs0 => exact ⟨g0, gs0, rfl⟩
    rw [hchunks] at hr
    simp only [List.map_cons] at hr
    rw [show ((Node.paragraph g0 :: gs0.map (fun g => Node.paragraph g)).foldlM
        addChild (Node.paragraph [])) =
        (addChild (Node.paragraph []) (Node.paragraph g0) >>= fun b =>
          (gs0.map (fun g => Node.paragraph g)).foldlM addChild b) from
      List.foldlM_cons ..] at hr
    rw [addChild_paragraph_not_eligible [] (.paragraph g0) rfl] at hr
    simp [bind, Except.bind] at hr
  · rw [if_neg hc] at hr
    rw [paragraphizeNoneligible] at hr
    cases h1 : (if c.isInternal = true then paragraphize c else .ok c) with
    | error e => rw [h1] at hr; simp at hr
    | ok c' =>
      rw [h1] at hr
      have htag : c'.tag = c.tag := by
        by_cases hi : c.isInternal = true
        · rw [if_pos hi] at h1
          exact paragraphize_tag c c' h1
        · rw [if_neg hi] at h1
          injection h1 with h1'
          rw [h1']
      have hc' : eligibleB c' = false := by
        rw [eligibleB_tag c' c htag]
        simpa using hc
      simp only [addChild_paragraph_not_eligible [] c' hc'] at hr
      simp at hr

theorem paragraphizeNoneligible_ok_sub (g : List Node) :
    ∀ acc y, paragraphizeNoneligible acc g = .ok y →
      ∀ x ∈ g, x.isInternal = true → ∃ x', paragraphize x = .ok x' := by
  induction g with
  | nil => intro acc y _ x hx; simp at hx
  | cons c cs ih =>
    intro acc y h x hx hxi
    rw [paragraphizeNoneligible] at h
    cases h1 : (if c.isInternal = true then paragraphize c else .ok c) with
    | error e => rw [h1] at h; simp at h
    | ok c' =>
      rw [h1] at h
      simp at h
      cases h2 : addChild acc c' with
      | error e => rw [h2] at h; simp at h
      | ok acc' =>
        rw [h2] at h
        simp at h
        rcases List.mem_cons.mp hx with rfl | hx'
        · rw [if_pos hxi] at h1
          exact ⟨c', h1⟩
        · exact ih acc' y h x hx' hxi

theorem paragraphizeGroups_ok_sub (gs : List (Bool × List Node)) :
    ∀ acc y, paragraphizeGroups acc gs = .ok y →
      ∀ bg ∈ gs, bg.1 = false → ∀ x ∈ bg.2, x.isInternal = true →
        ∃ x', paragraphize x = .ok x' := by
  induction gs with
  | nil => intro acc y _ bg hbg; simp at hbg
  | cons bg0 gs ih =>
    obtain ⟨b, g⟩ := bg0
    intro acc y h bg hbg hbg1 x hx hxi
    rw [paragraphizeGroups] at h
    by_cases hb : b
    · rw [if_pos hb] at h
      cases h1 : paragraphizeTextlikeNodes g with
      | error e => rw [h1] at h; simp at h
      | ok ps =>
        rw [h1] at h
        simp at h
        cases h2 : ps.foldlM addChild acc with
        | error e => rw [h2] at h; simp at h
        | ok acc' =>
          rw [h2] at h
          simp at h
          rcases List.mem_cons.mp hbg with rfl | hbg'
          · rw [hb] at hbg1; exact absurd hbg1 (by simp)
          · exact ih acc' y h bg hbg' hbg1 x hx hxi
    · rw [if_neg hb] at h
      cases h1 : paragraphizeNoneligible acc g with
      | error e => rw [h1] at h; simp at h
      | ok acc' =>
        rw [h1] at h
        simp at h
        rcases List.mem_cons.mp hbg with rfl | hbg'
        · exact paragraphizeNoneligible_ok_sub g acc acc' h1 x hx hxi
        · exact ih acc' y h bg hbg' hbg1 x hx hxi

theorem hasNPList_mem (cs : List Node)
    (h : hasNonemptyParagraphListB cs = true) :
    ∃ c ∈ cs, hasNonemptyParagraphB c = true := by
  induction cs with
  | nil => simp [hasNonemptyParagraphListB] at h
  | cons c cs ih =>
    rw [hasNonemptyParagraphListB] at h
    rcases Bool.or_eq_true_iff.mp h with hc | hcs
    · exact ⟨c, by simp, hc⟩
    · obtain ⟨c', hc'm, hc'⟩ := ih hcs
      exact ⟨c', by simp [hc'm], hc'⟩

theorem hasNPB_internal (c : Node) (h : hasNonemptyParagraphB c = true) :
    c.isInternal = true := by
  cases c <;> simp_all [hasNonemptyParagraphB, Node.isInternal]

theorem internal_not_eligible (c : Node) (h : c.isInternal = true) :
    eligibleB c = false := by
  cases c <;> first
    | rfl
    | simp_all [Node.isInternal]

theorem nodeWeight_mem (c : Node) (cs : List Node) (h : c ∈ cs) :
    nodeWeight c ≤ nodeListWeight cs := by
  induction cs with
  | nil => simp at h
  | cons d ds ih =>
    rcases List.mem_cons.mp h with rfl | h'
    · simp [nodeListWeight]
    · have := ih h'
      simp [nodeListWeight]
      omega

/-- C10: the paragraph reconstruction pass is not idempotent: on every
tree containing a `Paragraph` node that owns at least one child, the
pass fails (the rebuilt paragraphs get attached to a copied `Paragraph`
parent, whose allowed-child-type set excludes `Paragraph`), instead of
returning a tree; hence re-running the pass on its own output errors
whenever that output contains a non-empty Paragraph. -/
theorem paragraphizeNotIdempotent_spec (t : Node)
    (h : hasNonemptyParagraphB t = true) :
    ∃ e, paragraphize t = .error e := by
  have main : ∀ W t, nodeWeight t ≤ W → hasNonemptyParagraphB t = true →
      ∀ r, paragraphize t ≠ .ok r := by
    intro W
    induction W with
    | zero =>
      intro t hw
      have := nodeWeight_pos t
      omega
    | succ W ih =>
      intro t hw hnp r hr
      have step : ∀ cs : List Node, nodeListWeight cs ≤ W →
          hasNonemptyParagraphListB cs = true →
          ∀ (acc : Node) r, paragraphizeGroups acc (groupRuns eligibleB cs) ≠
            .ok r := by
        intro cs hcsW hnpl acc r' hgr
        obtain ⟨c, hcmem, hcnp⟩ := hasNPList_mem cs hnpl
        have hci := hasNPB_internal c hcnp
        have hce := internal_not_eligible c hci
        obtain ⟨b, g, hg, hcg⟩ := groupRuns_cover eligibleB cs c hcmem
        have hb : b = false := by
          rw [← groupRuns_uniform eligibleB cs b g hg c hcg, hce]
        obtain ⟨c', hc'⟩ := paragraphizeGroups_ok_sub _ _ _ hgr (b, g) hg
          (by rw [hb]) c hcg hci
        have hcw : nodeWeight c ≤ W :=
          le_trans (nodeWeight_mem c cs hcmem) hcsW
        exact ih c hcw hcnp c' hc'
      cases t with
      | paragraph cs =>
        have hcs : cs ≠ [] := by
          intro hnil
          subst hnil
          simp [hasNonemptyParagraphB, hasNonemptyParagraphListB] at hnp
        exact paragraphize_paragraph_fails cs hcs r hr
      | problem cs =>
        rw [hasNonemptyParagraphB] at hnp
        rw [paragraphize] at hr
        refine step cs ?_ hnp (.problem []) r hr
        simp [nodeWeight] at hw
        omega
      | subproblem cs =>
        rw [hasNonemptyParagraphB] at hnp
        rw [paragraphize] at hr
        refine step cs ?_ hnp (.subproblem []) r hr
        simp [nodeWeight] at hw
        omega
      | multipleChoices cs =>
        rw [hasNonemptyParagraphB] at hnp
        rw [paragraphize] at hr
        refine step cs ?_ hnp (.multipleChoices []) r hr
        simp [nodeWeight] at hw
        omega
      | multipleSelect cs =>
        rw [hasNonemptyParagraphB] at hnp
        rw [paragraphize] at hr
        refine step cs ?_ hnp (.multipleSelect []) r hr
        simp [nodeWeight] at hw
        omega
      | choice b cs =>
        rw [hasNonemptyParagraphB] at hnp
        rw [paragraphize] at hr
        refine step cs ?_ hnp (.choice b []) r hr
        simp [nodeWeight] at hw
        omega
      | fillInTheBlank cs =>
        rw [hasNonemptyParagraphB] at hnp
        rw [paragraphize] at hr
        refine step cs ?_ hnp (.fillInTheBlank []) r hr
        simp [nodeWeight] at hw
        omega
      | solution cs =>
        rw [hasNonemptyParagraphB] at hnp
        rw [paragraphize] at hr
        refine step cs ?_ hnp (.solution []) r hr
        simp [nodeWeight] at hw
        omega
      | normalText s => simp [hasNonemptyParagraphB] at hnp
      | boldText s => simp [hasNonemptyParagraphB] at hnp
      | italicText s => simp [hasNonemptyParagraphB] at hnp
      | displayMath s => simp [hasNonemptyParagraphB] at hnp
      | inlineMath s => simp [hasNonemptyParagraphB] at hnp
      | code l c => simp [hasNonemptyParagraphB] at hnp
      | inlineCode l c => simp [hasNonemptyParagraphB] at hnp
      | image p d => simp [hasNonemptyParagraphB] at hnp
      | trueFalse b => simp [hasNonemptyParagraphB] at hnp
  cases hres : paragraphize t with
  | error e => exact ⟨e, rfl⟩
  | ok r => exact absurd hres (main (nodeWeight t) t le_rfl h r)

theorem paragraphizeNotIdempotent_spec_witness :
    hasNonemptyParagraphB (.problem [.paragraph [.normalText "a"]]) = true ∧
    ∃ e, paragraphize (.problem [.paragraph [.normalText "a"]]) = .error e :=
  ⟨by decide, paragraphizeNotIdempotent_spec _ (by decide)⟩

theorem validListB_mem (cs : List Node) (h : validListB cs = true) (c : Node)
    (hc : c ∈ cs) : validB c = true := by
  induction cs with
  | nil => simp at hc
  | cons d ds ih =>
    rw [validListB, Bool.and_eq_true] at h
    rcases List.mem_cons.mp hc with rfl | hc'
    · exact h.1
    · exact ih h.2 hc'

theorem valid_unpack_aux (tg : Tag) (cs : List Node)
    (h : (childrenAllowed tg cs && validListB cs) = true) :
    ∀ c ∈ cs, c.tag ∈ allowedChildTags tg ∧ validB c = true := by
  rw [Bool.and_eq_true] at h
  intro c hc
  refine ⟨?_, validListB_mem cs h.2 c hc⟩
  have := List.all_eq_true.mp h.1 c hc
  simpa using this

theorem validB_children (t : Node) (h : validB t = true) :
    ∀ c ∈ t.childrenOf, c.tag ∈ allowedChildTags t.tag ∧ validB c = true := by
  cases t with
  | problem cs => exact valid_unpack_aux _ cs (by rwa [validB] at h)
  | subproblem cs => exact valid_unpack_aux _ cs (by rwa [validB] at h)
  | paragraph cs => exact valid_unpack_aux _ cs (by rwa [validB] at h)
  | multipleChoices cs => exact valid_unpack_aux _ cs (by rwa [validB] at h)
  | multipleSelect cs => exact valid_unpack_aux _ cs (by rwa [validB] at h)
  | choice b cs => exact valid_unpack_aux _ cs (by rwa [validB] at h)
  | fillInTheBlank cs => exact valid_unpack_aux _ cs (by rwa [validB] at h)
  | solution cs => exact valid_unpack_aux _ cs (by rwa [validB] at h)
  | normalText s => intro c hc; simp [Node.childrenOf] at hc
  | boldText s => intro c hc; simp [Node.childrenOf] at hc
  | italicText s => intro c hc; simp [Node.childrenOf] at hc
  | displayMath s => intro c hc; simp [Node.childrenOf] at hc
  | inlineMath s => intro c hc; simp [Node.childrenOf] at hc
  | code l c0 => intro c hc; simp [Node.childrenOf] at hc
  | inlineCode l c0 => intro c hc; simp [Node.childrenOf] at hc
  | image p d => intro c hc; simp [Node.childrenOf] at hc
  | trueFalse b => intro c hc; simp [Node.childrenOf] at hc

theorem noParagraphListB_mem (cs : List Node)
    (h : noParagraphListB cs = true) (c : Node) (hc : c ∈ cs) :
    noParagraphB c = true := by
  induction cs with
  | nil => simp at hc
  | cons d ds ih =>
    rw [noParagraphListB, Bool.and_eq_true] at h
    rcases List.mem_cons.mp hc with rfl | hc'
    · exact h.1
    · exact ih h.2 hc'

theorem noParagraphB_children (t : Node) (h : noParagraphB t = true) :
    ∀ c ∈ t.childrenOf, noParagraphB c = true := by
  cases t <;>
    first
    | (intro c hc; simp [Node.childrenOf] at hc; done)
    | (rw [noParagraphB] at h; exact absurd h Bool.false_ne_true)
    | (exact fun c hc => noParagraphListB_mem _ (by rwa [noParagraphB] at h) c hc)

theorem noParagraphB_tag (t : Node) (h : noParagraphB t = true) :
    t.tag ≠ Tag.paragraph := by
  cases t <;> simp_all [noParagraphB, Node.tag]

theorem paragraph_allowed_of_eligible (tp tx : Tag) (h1 : tp ≠ Tag.paragraph)
    (h2 : tx ∈ allowedChildTags Tag.paragraph)
    (h3 : tx ∈ allowedChildTags tp) :
    Tag.paragraph ∈ allowedChildTags tp := by
  cases tp <;> cases tx <;> (revert h1 h2 h3; decide)

theorem addChild_mem_ok (acc x : Node)
    (h : x.tag ∈ allowedChildTags acc.tag) :
    addChild acc x = .ok (acc.setChildren (acc.childrenOf ++ [x])) := by
  rw [addChild, if_pos h]

theorem foldlM_addChild_ok (ps : List Node) :
    ∀ acc, (∀ x ∈ ps, x.tag ∈ allowedChildTags acc.tag) →
      ∃ acc', List.foldlM addChild acc ps = .ok acc' ∧ acc'.tag = acc.tag := by
  induction ps with
  | nil => exact fun acc _ => ⟨acc, rfl, rfl⟩
  | cons x xs ih =>
    intro acc hmem
    have h1 := addChild_mem_ok acc x (hmem x (by simp))
    obtain ⟨acc', h2, h3⟩ := ih (acc.setChildren (acc.childrenOf ++ [x]))
      (fun y hy => by rw [tag_setChildren]; exact hmem y (by simp [hy]))
    refine ⟨acc', ?_, by rw [h3, tag_setChildren]⟩
    rw [List.foldlM_cons, h1]
    exact h2

theorem paragraphizeNoneligible_ok (W : Nat)
    (IH : ∀ x, nodeWeight x < W → validB x = true → noParagraphB x = true →
      ∃ x', paragraphize x = .ok x' ∧ x'.tag = x.tag)
    (g : List Node) :
    ∀ acc, (∀ x ∈ g, x.tag ∈ allowedChildTags acc.tag ∧ validB x = true ∧
        noParagraphB x = true ∧ nodeWeight x < W) →
      ∃ acc', paragraphizeNoneligible acc g = .ok acc' ∧ acc'.tag = acc.tag := by
  induction g with
  | nil => exact fun acc _ => ⟨acc, by rw [paragraphizeNoneligible], rfl⟩
  | cons c cs ih =>
    intro acc hmem
    obtain ⟨hal, hv, hn, hwt⟩ := hmem c (by simp)
    have hc' : ∃ c', (if c.isInternal = true then paragraphize c
        else .ok c) = .ok c' ∧ c'.tag = c.tag := by
      by_cases hci : c.isInternal = true
      · obtain ⟨c', h1, h2⟩ := IH c hwt hv hn
        exact ⟨c', by rw [if_pos hci, h1], h2⟩
      · exact ⟨c, by rw [if_neg hci], rfl⟩
    obtain ⟨c', hstep, htagc⟩ := hc'
    have hadd := addChild_mem_ok acc c' (by rwa [htagc])
    obtain ⟨acc', h2, h3⟩ := ih (acc.setChildren (acc.childrenOf ++ [c']))
      (fun y hy => by
        rw [tag_setChildren]
        exact hmem y (by simp [hy]))
    refine ⟨acc', ?_, by rw [h3, tag_setChildren]⟩
    rw [paragraphizeNoneligible, hstep]
    show (match addChild acc c' with
      | Except.error e => Except.error e
      | Except.ok acc' => paragraphizeNoneligible acc' cs) = _
    rw [hadd]
    exact h2

theorem paragraphizeGroups_ok (W : Nat)
    (IH : ∀ x, nodeWeight x < W → validB x = true → noParagraphB x = true →
      ∃ x', paragraphize x = .ok x' ∧ x'.tag = x.tag)
    (gs : List (Bool × List Node)) :
    ∀ acc, acc.tag ≠ Tag.paragraph →
      (∀ bg ∈ gs, ∀ x ∈ bg.2, eligibleB x = bg.1 ∧
        x.tag ∈ allowedChildTags acc.tag ∧ validB x = true ∧
        noParagraphB x = true ∧ nodeWeight x < W) →
      ∃ r, paragraphizeGroups acc gs = .ok r ∧ r.tag = acc.tag := by
  induction gs with
  | nil => exact fun acc _ _ => ⟨acc, by rw [paragraphizeGroups], rfl⟩
  | cons bg0 gs ih =>
    obtain ⟨b, g⟩ := bg0
    intro acc hpar hmem
    by_cases hb : b
    · have hge : ∀ m ∈ g, eligibleB m = true := by
        intro m hm
        rw [(hmem (b, g) (by simp) m hm).1, hb]
      have hps : ∀ x ∈ ((runChunks g).filter (fun g => !g.isEmpty)).map
          (fun g => Node.paragraph g), x.tag ∈ allowedChildTags acc.tag := by
        intro x hx
        obtain ⟨g0, hg0, rfl⟩ := List.mem_map.mp hx
        have hg0' : g0 ∈ runChunks g := List.mem_of_mem_filter hg0
        have hg0ne : g0 ≠ [] := by
          have := List.of_mem_filter hg0
          simpa using this
        obtain ⟨x0, hx0⟩ := List.exists_mem_of_ne_nil g0 hg0ne
        obtain ⟨m, hm, _⟩ := runChunks_mem g g0 x0 hg0' hx0
        have helig : m.tag ∈ allowedChildTags Tag.paragraph := by
          have := hge m hm
          simpa [eligibleB] using this
        have hall := (hmem (b, g) (by simp) m hm).2.1
        exact paragraph_allowed_of_eligible acc.tag m.tag hpar helig hall
      obtain ⟨acc1, hfold, htag1⟩ := foldlM_addChild_ok _ acc hps
      obtain ⟨r, hrest, htagr⟩ := ih acc1 (by rwa [htag1])
        (fun bg hbg x hx => by
          rw [htag1]
          exact hmem bg (by simp [hbg]) x hx)
      refine ⟨r, ?_, by rw [htagr, htag1]⟩
      rw [paragraphizeGroups, if_pos hb, paragraphizeTextlike_value g hge]
      show (match ((runChunks g).filter (fun g => !g.isEmpty)).map
            (fun g => Node.paragraph g) |>.foldlM addChild acc with
        | Except.error e => Except.error e
        | Except.ok acc' => paragraphizeGroups acc' gs) = _
      rw [hfold]
      exact hrest
    · obtain ⟨acc1, hnel, htag1⟩ := paragraphizeNoneligible_ok W IH g acc
        (fun x hx => (hmem (b, g) (by simp) x hx).2)
      obtain ⟨r, hrest, htagr⟩ := ih acc1 (by rwa [htag1])
        (fun bg hbg x hx => by
          rw [htag1]
          exact hmem bg (by simp [hbg]) x hx)
      refine ⟨r, ?_, by rw [htagr, htag1]⟩
      rw [paragraphizeGroups, if_neg hb, hnel]
      exact hrest

theorem paragraphize_ok_of_good (t : Node) (hv : validB t = true)
    (hn : noParagraphB t = true) :
    ∃ t', paragraphize t = .ok t' ∧ t'.tag = t.tag := by
  have main : ∀ W t, nodeWeight t ≤ W → validB t = true →
      noParagraphB t = true →
      ∃ t', paragraphize t = .ok t' ∧ t'.tag = t.tag := by
    intro W
    induction W with
    | zero =>
      intro t hw
      have := nodeWeight_pos t
      omega
    | succ W ih =>
      intro t hw hv hn
      have hwc : nodeListWeight t.childrenOf < nodeWeight t :=
        nodeWeight_childrenOf t
      obtain ⟨r, hr, htag⟩ := paragraphizeGroups_ok (nodeWeight t)
        (fun x hx hv' hn' => ih x (by omega) hv' hn')
        (groupRuns eligibleB t.childrenOf) (t.setChildren [])
        (by rw [tag_setChildren]; exact noParagraphB_tag t hn)
        (fun bg hbg x hx => by
          have hxmem : x ∈ t.childrenOf :=
            groupRuns_sub eligibleB t.childrenOf bg.1 bg.2
              (by simpa using hbg) x hx
          have helig : eligibleB x = bg.1 :=
            groupRuns_uniform eligibleB t.childrenOf bg.1 bg.2
              (by simpa using hbg) x hx
          obtain ⟨hall, hvx⟩ := validB_children t hv x hxmem
          refine ⟨helig, by rwa [tag_setChildren], hvx,
            noParagraphB_children t hn x hxmem, ?_⟩
          have := nodeWeight_mem x t.childrenOf hxmem
          omega)
      refine ⟨r, ?_, by rwa [tag_setChildren] at htag⟩
      rw [paragraphize]
      exact hr
  exact main (nodeWeight t) t le_rfl hv hn

theorem validListB_append (l1 l2 : List Node) :
    validListB (l1 ++ l2) = (validListB l1 && validListB l2) := by
  induction l1 with
  | nil => simp [validListB]
  | cons c cs ih => simp [validListB, ih, Bool.and_assoc]

theorem noParagraphListB_append (l1 l2 : List Node) :
    noParagraphListB (l1 ++ l2) = (noParagraphListB l1 && noParagraphListB l2) := by
  induction l1 with
  | nil => simp [noParagraphListB]
  | cons c cs ih => simp [noParagraphListB, ih, Bool.and_assoc]

theorem good_addChild (acc x y : Node)
    (hva : validB acc = true) (hna : noParagraphB acc = true)
    (hvx : validB x = true) (hnx : noParagraphB x = true)
    (h : addChild acc x = .ok y) :
    validB y = true ∧ noParagraphB y = true := by
  rw [addChild] at h
  split at h
  · injection h with h'
    subst h'
    rename_i hmem
    cases acc <;>
      simp_all [Node.setChildren, Node.childrenOf, Node.tag, validB,
        noParagraphB, childrenAllowed, List.all_append, validListB_append,
        noParagraphListB_append, validListB, noParagraphListB,
        allowedChildTags]
  · exact absurd h (by simp)

theorem good_foldlM (ps : List Node) :
    ∀ acc y, validB acc = true → noParagraphB acc = true →
      (∀ x ∈ ps, validB x = true ∧ noParagraphB x = true) →
      List.foldlM addChild acc ps = .ok y →
      validB y = true ∧ noParagraphB y = true := by
  induction ps with
  | nil =>
    intro acc y hva hna _ h
    have h' : (Except.ok acc : Except Err Node) = Except.ok y := h
    injection h' with h''
    subst h''
    exact ⟨hva, hna⟩
  | cons x xs ih =>
    intro acc y hva hna hmem h
    rw [List.foldlM_cons] at h
    cases h1 : addChild acc x with
    | error e => rw [h1] at h; simp [bind, Except.bind] at h
    | ok acc' =>
      rw [h1] at h
      simp only [bind, Except.bind] at h
      obtain ⟨hva', hna'⟩ := good_addChild acc x acc' hva hna
        (hmem x (by simp)).1 (hmem x (by simp)).2 h1
      exact ih acc' y hva' hna' (fun z hz => hmem z (by simp [hz])) h

theorem good_mkNode (base : Node) (cs : List Node) (y : Node)
    (hvb : validB base = true) (hnb : noParagraphB base = true)
    (hmem : ∀ x ∈ cs, validB x = true ∧ noParagraphB x = true)
    (h : mkNode base cs = .ok y) :
    validB y = true ∧ noParagraphB y = true := by
  rw [mkNode] at h
  exact good_foldlM cs base y hvb hnb hmem h

theorem convertSoupNode_good (V : Nat) :
    ∀ tex, texWeight tex ≤ V → ∀ ctx t, convertSoupNode ctx tex = .ok t →
      validB t = true ∧ noParagraphB t = true := by
  induction V with
  | zero =>
    intro tex hw
    have := texWeight_pos tex
    omega
  | succ V ih =>
    intro tex hw ctx t h
    have heach : ∀ l, texListWeight l ≤ V → ∀ ns, convertEach ctx l = .ok ns →
        ∀ n ∈ ns, validB n = true ∧ noParagraphB n = true := by
      intro l
      induction l with
      | nil =>
        intro _ ns hns n hn
        rw [convertEach] at hns
        injection hns with h'
        subst h'
        simp at hn
      | cons c cs ihl =>
        intro hlw ns hns n hn
        have hcw : texWeight c ≤ V := by
          simp [texListWeight] at hlw
          have := texWeight_pos c
          omega
        have hcsw : texListWeight cs ≤ V := by
          simp [texListWeight] at hlw
          have := texWeight_pos c
          omega
        rw [convertEach] at hns
        cases h1 : convertSoupNode ctx c with
        | error e => rw [h1] at hns; simp at hns
        | ok n0 =>
          rw [h1] at hns
          cases h2 : convertEach ctx cs with
          | error e => rw [h2] at hns; simp at hns
          | ok ns0 =>
            rw [h2] at hns
            simp at hns
            subst hns
            rcases List.mem_cons.mp hn with rfl | hn'
            · exact ih c hcw ctx n h1
            · exact ihl hcsw ns0 h2 n hn'
    have haddEach : ∀ l, texListWeight l ≤ V → ∀ acc y,
        validB acc = true → noParagraphB acc = true →
        convertAddEach ctx acc l = .ok y →
        validB y = true ∧ noParagraphB y = true := by
      intro l
      induction l with
      | nil =>
        intro _ acc y hva hna hy
        rw [convertAddEach] at hy
        injection hy with h'
        subst h'
        exact ⟨hva, hna⟩
      | cons c cs ihl =>
        intro hlw acc y hva hna hy
        have hcw : texWeight c ≤ V := by
          simp [texListWeight] at hlw
          have := texWeight_pos c
          omega
        have hcsw : texListWeight cs ≤ V := by
          simp [texListWeight] at hlw
          have := texWeight_pos c
          omega
        rw [convertAddEach] at hy
        cases h1 : convertSoupNode ctx c with
        | error e => rw [h1] at hy; simp at hy
        | ok n0 =>
          rw [h1] at hy
          simp at hy
          cases h2 : addChild acc n0 with
          | error e => rw [h2] at hy; simp at hy
          | ok acc' =>
            rw [h2] at hy
            simp at hy
            obtain ⟨hv0, hn0⟩ := ih c hcw ctx n0 h1
            obtain ⟨hva', hna'⟩ := good_addChild acc n0 acc' hva hna hv0 hn0 h2
            exact ihl hcsw acc' y hva' hna' hy
    have hprobc : ∀ l, texListWeight l ≤ V → ∀ acc y,
        validB acc = true → noParagraphB acc = true →
        convertProbContents ctx acc l = .ok y →
        validB y = true ∧ noParagraphB y = true := by
      intro l
      induction l with
      | nil =>
        intro _ acc y hva hna hy
        rw [convertProbContents] at hy
        injection hy with h'
        subst h'
        exact ⟨hva, hna⟩
      | cons c cs ihl =>
        intro hlw acc y hva hna hy
        have hcw : texWeight c ≤ V := by
          simp [texListWeight] at hlw
          have := texWeight_pos c
          omega
        have hcsw : texListWeight cs ≤ V := by
          simp [texListWeight] at hlw
          have := texWeight_pos c
          omega
        rw [convertProbContents] at hy
        by_cases hsub : isSubprobsetB c
        · rw [if_pos hsub] at hy
          cases h1 : convertAddEach ctx acc c.contentsOf with
          | error e => rw [h1] at hy; simp at hy
          | ok acc' =>
            rw [h1] at hy
            simp at hy
            have hgw : texListWeight c.contentsOf ≤ V := by
              have := texListWeight_contentsOf_lt c
              omega
            obtain ⟨hva', hna'⟩ := haddEach c.contentsOf hgw acc acc' hva hna h1
            exact ihl hcsw acc' y hva' hna' hy
        · rw [if_neg hsub] at hy
          cases h1 : convertSoupNode ctx c with
          | error e => rw [h1] at hy; simp at hy
          | ok n0 =>
            rw [h1] at hy
            simp at hy
            cases h2 : addChild acc n0 with
            | error e => rw [h2] at hy; simp at hy
            | ok acc' =>
              rw [h2] at hy
              simp at hy
              obtain ⟨hv0, hn0⟩ := ih c hcw ctx n0 h1
              obtain ⟨hva', hna'⟩ :=
                good_addChild acc n0 acc' hva hna hv0 hn0 h2
              exact ihl hcsw acc' y hva' hna' hy
    have hsegsG : ∀ segs, segsWeight segs ≤ V → ∀ cs',
        convertSegments ctx segs = .ok cs' →
        ∀ c ∈ cs', validB c = true ∧ noParagraphB c = true := by
      intro segs
      induction segs with
      | nil =>
        intro _ cs' hcs' c hc
        rw [convertSegments] at hcs'
        injection hcs' with h'
        subst h'
        simp at hc
      | cons seg rest ihl =>
        intro hsw cs' hcs' c hc
        cases seg with
        | nil => rw [convertSegments] at hcs'; simp at hcs'
        | cons marker body =>
          rw [convertSegments] at hcs' 
          have hbw : texListWeight body ≤ V := by
            simp [segsWeight, texListWeight] at hsw
            have := texWeight_pos marker
            omega
          have hrw : segsWeight rest ≤ V := by
            simp [segsWeight, texListWeight] at hsw
            have := texWeight_pos marker
            omega
          cases h1 : convertEach ctx body with
          | error e => rw [h1] at hcs'; simp at hcs'
          | ok children =>
            rw [h1] at hcs'
            simp at hcs'
            cases h2 : mkNode (.choice (marker.nameOf == "correctchoice") [])
                children with
            | error e => rw [h2] at hcs'; simp at hcs'
            | ok c0 =>
              rw [h2] at hcs'
              simp at hcs'
              cases h3 : convertSegments ctx rest with
              | error e => rw [h3] at hcs'; simp at hcs'
              | ok cs0 =>
                rw [h3] at hcs'
                simp at hcs'
                subst hcs'
                rcases List.mem_cons.mp hc with rfl | hc'
                · exact good_mkNode _ children c (by rfl) (by rfl)
                    (heach body hbw children h1) h2
                · exact ihl hrw cs0 h3 c hc'
    cases tex with
    | text s =>
      rw [convertSoupNode] at h
      injection h with h'
      subst h'
      exact ⟨rfl, rfl⟩
    | cmd name args =>
      rw [convertSoupNode.eq_def] at h
      simp only [] at h
      split at h
      all_goals
        first
        | exact Except.noConfusion h
        | (cases h; exact ⟨rfl, rfl⟩)
        | (split at h
           all_goals
             first
             | exact Except.noConfusion h
             | (cases h; exact ⟨rfl, rfl⟩)
             | (split at h
                all_goals
                  first
                  | exact Except.noConfusion h
                  | (cases h; exact ⟨rfl, rfl⟩)))
    | env name args es contents =>
      have hcontw : texListWeight contents ≤ V := by
        simp [texWeight] at hw
        omega
      rw [convertSoupNode.eq_def] at h
      simp only [] at h
      split at h
      · -- "[tex]"
        split at h
        · rename_i c
          have hcw : texWeight c ≤ V := by
            simp [texListWeight] at hcontw
            omega
          exact ih c hcw ctx t h
        · exact Except.noConfusion h
      · exact hprobc contents hcontw (.problem []) t rfl rfl h
      · -- subprob
        cases h1 : convertEach ctx contents with
        | error e => rw [h1] at h; exact Except.noConfusion h
        | ok cs0 =>
          rw [h1] at h
          exact good_mkNode _ cs0 t (by rfl) (by rfl) (heach contents hcontw cs0 h1) h
      · cases h; exact ⟨rfl, rfl⟩
      · cases h; exact ⟨rfl, rfl⟩
      · cases h; exact ⟨rfl, rfl⟩
      · cases h; exact ⟨rfl, rfl⟩
      · -- minted
        split at h
        · cases h; exact ⟨rfl, rfl⟩
        · exact Except.noConfusion h
      · -- soln
        cases h1 : convertEach ctx contents with
        | error e => rw [h1] at h; exact Except.noConfusion h
        | ok cs0 =>
          rw [h1] at h
          exact good_mkNode _ cs0 t (by rfl) (by rfl) (heach contents hcontw cs0 h1) h
      · -- choices
        generalize (match args with
            | a :: _ => a == "rectangle"
            | [] => false) = b at h
        cases b with
        | false =>
          rw [if_neg Bool.false_ne_true, if_neg Bool.false_ne_true] at h
          have hsw : segsWeight (segmentList isChoiceMarker contents) ≤ V := by
            rw [segsWeight_segmentList]; omega
          cases h1 : convertSegments ctx (segmentList isChoiceMarker contents) with
          | error e => rw [h1] at h; exact Except.noConfusion h
          | ok choices =>
            rw [h1] at h
            simp at h
            exact good_mkNode (Node.multipleChoices []) choices t rfl rfl
              (hsegsG _ hsw choices h1) h
        | true =>
          rw [if_pos rfl, if_pos rfl] at h
          have hsw : segsWeight (segmentList isChoiceMarker contents.tail) ≤ V := by
            rw [segsWeight_segmentList]
            have := texListWeight_tail_le contents
            omega
          cases h1 : convertSegments ctx
              (segmentList isChoiceMarker contents.tail) with
          | error e => rw [h1] at h; exact Except.noConfusion h
          | ok choices =>
            rw [h1] at h
            simp at h
            exact good_mkNode (Node.multipleSelect []) choices t rfl rfl
              (hsegsG _ hsw choices h1) h
      · exact Except.noConfusion h

/-- C8: every tree produced by the converter contains no Paragraph node, and
the paragraph reconstruction pass (`_paragraphize`) completes on it without
raising: every Paragraph it constructs and every child it attaches passes the
attach-time allowed-child check, so `add_child`'s error branch is unreachable
on converter output. -/
theorem converterOutputParagraphizes_spec (ctx : Ctx) (tex : TexNode) (t : Node)
    (h : convertSoupNode ctx tex = .ok t) :
    noParagraphB t = true ∧ ∃ t', paragraphize t = .ok t' := by
  obtain ⟨hv, hn⟩ := convertSoupNode_good (texWeight tex) tex le_rfl ctx t h
  obtain ⟨t', ht', _⟩ := paragraphize_ok_of_good t hv hn
  exact ⟨hn, t', ht'⟩

theorem converterOutputParagraphizes_spec_witness :
    noParagraphB (Node.problem [Node.normalText "hi"]) = true ∧
      ∃ t', paragraphize (Node.problem [Node.normalText "hi"]) = .ok t' :=
  converterOutputParagraphizes_spec ⟨fun _ => none⟩
    (TexNode.env "prob" [] "" [TexNode.text "hi"])
    (Node.problem [Node.normalText "hi"])
    (by simp [convertSoupNode, convertProbContents, convertAddEach,
      isSubprobsetB, TexNode.nameOf, addChild, Node.tag, allowedChildTags,
      problemAllowedChildTypes, Node.setChildren, Node.childrenOf, pure,
      Except.pure])

end Practicebank
